import Mathlib

/-!
Shallow embedding of the DEX limit-order-book matching engine
(`cpp/include/Order.hpp`, `cpp/include/OrderBook.hpp`, `cpp/src/OrderBook.cpp`,
`cpp/include/MatchingEngine.hpp`, `cpp/src/MatchingEngine.cpp`).

Prices and quantities (`double` in the source) are embedded as rationals;
the order records, which the source shares between the price levels and the
id directory through `shared_ptr`, are kept in an id-keyed store, and the
ladders and the directory hold ids into it.  `std::map` (used for the two
ladders, the directory and the depth snapshots) is embedded as an
association list kept sorted by the map's comparator.
-/

namespace DEX

inductive OrderSide where
  | buy
  | sell
deriving DecidableEq, Repr

inductive OrderType where
  | market
  | limit
deriving DecidableEq, Repr

/-- `OrderStatus` from `Order.hpp`; the source's `PARTIAL` is spelled
`partialFill` here because `partial` is a Lean keyword. -/
inductive OrderStatus where
  | pending
  | partialFill
  | filled
  | cancelled
deriving DecidableEq, Repr

/-- The order record of `Order.hpp` (its wall-clock timestamp, which no
observable behaviour of the book depends on, is not modelled). -/
structure Order where
  id : Nat
  userId : String
  tradingPair : String
  side : OrderSide
  type : OrderType
  status : OrderStatus
  price : ℚ
  quantity : ℚ
  filledQuantity : ℚ
deriving DecidableEq, Repr

def Order.getRemainingQuantity (o : Order) : ℚ :=
  o.quantity - o.filledQuantity

/-- `filledQuantity >= quantity` -/
def Order.isFilled (o : Order) : Bool :=
  decide (o.quantity ≤ o.filledQuantity)

/-- A default record, returned by `Store.get` on a missing id; the source
never dereferences a missing id. -/
def Order.default0 : Order :=
  ⟨0, "", "", .buy, .limit, .pending, 0, 0, 0⟩

/-- The trade record of `OrderBook.hpp` (timestamp not modelled). -/
structure Trade where
  buyOrderId : Nat
  sellOrderId : Nat
  price : ℚ
  quantity : ℚ
deriving DecidableEq, Repr

/-- The arena of order records: the single mutable record that the source
reaches through `shared_ptr` from the ladders and from `orders_` lives here,
keyed by order id. -/
abbrev Store := List (Nat × Order)

def Store.get : Store → Nat → Order
  | [], _ => Order.default0
  | (k, o) :: rest, i => if i = k then o else Store.get rest i

/-- Mutate the record with key `i` in place (first occurrence). -/
def Store.update : Store → Nat → (Order → Order) → Store
  | [], _, _ => []
  | (k, o) :: rest, i, f =>
    if i = k then (k, f o) :: rest else (k, o) :: Store.update rest i f

/-- `orders_[id] = order`: sorted insert-or-assign, as in `std::map`. -/
def Store.insertRec : Store → Nat → Order → Store
  | [], i, v => [(i, v)]
  | (k, o) :: rest, i, v =>
    if i < k then (i, v) :: (k, o) :: rest
    else if i = k then (i, v) :: rest
    else (k, o) :: Store.insertRec rest i v

def Store.keys (s : Store) : List Nat := s.map Prod.fst

/-- One side of the book: price-keyed levels, each an arrival-ordered (FIFO)
list of order ids.  Kept sorted by the side's comparator, best price first,
as `std::map<double, std::vector<OrderPtr>, Cmp>` iterates. -/
abbrev Ladder := List (ℚ × List Nat)

def ladderIds (lad : Ladder) : List Nat := (lad.map Prod.snd).flatten

/-- Bid comparator `std::greater<double>`: higher price sorts first. -/
def bidBetter (a b : ℚ) : Bool := decide (b < a)

/-- Ask comparator `std::less<double>`: lower price sorts first. -/
def askBetter (a b : ℚ) : Bool := decide (a < b)

/-- `book[price].push_back(order)`: append to the level at `p`, creating the
level at its sorted position if absent. -/
def ladderInsert (better : ℚ → ℚ → Bool) (p : ℚ) (oid : Nat) : Ladder → Ladder
  | [] => [(p, [oid])]
  | (q, lvl) :: rest =>
    if p = q then (q, lvl ++ [oid]) :: rest
    else if better p q then (p, [oid]) :: (q, lvl) :: rest
    else (q, lvl) :: ladderInsert better p oid rest

/-- `std::remove` of the cancelled order from its level, then erase of the
level when it became empty (`OrderBook::cancelOrder`); only the level whose
key equals the order's price is visited, as `book.find(order->price)` does. -/
def ladderCancel (p : ℚ) (oid : Nat) : Ladder → Ladder
  | [] => []
  | (q, lvl) :: rest =>
    if q = p then
      let lvl1 := lvl.filter (fun x => !(x == oid))
      if lvl1.isEmpty then rest else (q, lvl1) :: rest
    else (q, lvl) :: ladderCancel p oid rest

/-- `OrderBook::executeTrade`: increment `filledQuantity` on one side and
recompute its status. -/
def applyFill (q : ℚ) (o : Order) : Order :=
  let o1 : Order := { o with filledQuantity := o.filledQuantity + q }
  if o1.isFilled then { o1 with status := .filled }
  else if 0 < o1.filledQuantity then { o1 with status := .partialFill }
  else o1

/-- `OrderBook::executeTrade`: fill both records by the same quantity and
emit the trade. -/
def executeTrade (st : Store) (buyId sellId : Nat) (price quantity : ℚ) :
    Store × Trade :=
  (Store.update (Store.update st buyId (applyFill quantity)) sellId (applyFill quantity),
   ⟨buyId, sellId, price, quantity⟩)

/-- The inner `while` of `OrderBook::matchOrder` over one price level: match
the taker `tid` against the level's FIFO queue.  When after a trade the
resting maker is not yet filled, exactly one of the two sides was filled, so
the taker is; the loop's guard then fails and it exits with the maker still
at the level's head. -/
def matchLevel : Store → Nat → List Nat → Store × List Nat × List Trade
  | st, _, [] => (st, [], [])
  | st, tid, mid :: rest =>
    let taker := Store.get st tid
    if taker.isFilled then (st, mid :: rest, [])
    else
      let maker := Store.get st mid
      let matchPrice := maker.price
      let matchQuantity := min taker.getRemainingQuantity maker.getRemainingQuantity
      let r :=
        if taker.side = .buy then executeTrade st tid mid matchPrice matchQuantity
        else executeTrade st mid tid matchPrice matchQuantity
      if (Store.get r.1 mid).isFilled then
        let r2 := matchLevel r.1 tid rest
        (r2.1, r2.2.1, r.2 :: r2.2.2)
      else
        (r.1, mid :: rest, [r.2])

/-- The outer `while` of `OrderBook::matchOrder` over the opposite ladder:
sweep the best levels; a limit taker stops at the first unacceptable price,
an emptied level is erased. -/
def priceAcceptable (taker : Order) (p : ℚ) : Bool :=
  match taker.side with
  | .buy => decide (p ≤ taker.price)
  | .sell => decide (taker.price ≤ p)

def matchLadder : Store → Nat → Ladder → Store × Ladder × List Trade
  | st, _, [] => (st, [], [])
  | st, tid, (price, lvl) :: rest =>
    let taker := Store.get st tid
    if taker.isFilled then (st, (price, lvl) :: rest, [])
    else if taker.type = .limit ∧ priceAcceptable taker price = false then
      (st, (price, lvl) :: rest, [])
    else
      let r := matchLevel st tid lvl
      if r.2.1.isEmpty then
        let r2 := matchLadder r.1 tid rest
        (r2.1, r2.2.1, r.2.2 ++ r2.2.2)
      else
        (r.1, (price, r.2.1) :: rest, r.2.2)

inductive BookError where
  | wrongPair
deriving DecidableEq, Repr

/-- `OrderBook`: the two ladders, the id directory `orders_`, and the store
the ids point into. -/
structure Book where
  tradingPair : String
  bids : Ladder
  asks : Ladder
  ordersDir : List Nat
  store : Store
deriving Repr

def Book.init (pair : String) : Book := ⟨pair, [], [], [], []⟩

def dirInsert : List Nat → Nat → List Nat
  | [], i => [i]
  | k :: rest, i =>
    if i < k then i :: k :: rest
    else if i = k then i :: rest
    else k :: dirInsert rest i

def dirErase : List Nat → Nat → List Nat
  | [], _ => []
  | k :: rest, i => if i = k then rest else k :: dirErase rest i

/-- `OrderBook::addOrder`: record the order in `orders_`, match it, and park
it on its own side's ladder when it is not fully filled. -/
def Book.addOrder (b : Book) (order : Order) : Except BookError (Book × List Trade) :=
  if order.tradingPair ≠ b.tradingPair then .error .wrongPair
  else
    let st0 := Store.insertRec b.store order.id order
    let dir0 := dirInsert b.ordersDir order.id
    let opposite := if order.side = .buy then b.asks else b.bids
    let r := matchLadder st0 order.id opposite
    let b1 : Book :=
      if order.side = .buy then
        { b with store := r.1, ordersDir := dir0, asks := r.2.1 }
      else
        { b with store := r.1, ordersDir := dir0, bids := r.2.1 }
    let o1 := Store.get r.1 order.id
    let b2 : Book :=
      if o1.isFilled then b1
      else if o1.side = .buy then
        { b1 with bids := ladderInsert bidBetter o1.price order.id b1.bids }
      else
        { b1 with asks := ladderInsert askBetter o1.price order.id b1.asks }
    .ok (b2, r.2.2)

/-- `OrderBook::cancelOrder`. -/
def Book.cancelOrder (b : Book) (orderId : Nat) : Book × Bool :=
  if orderId ∈ b.ordersDir then
    let order := Store.get b.store orderId
    let b1 : Book :=
      if order.side = .buy then { b with bids := ladderCancel order.price orderId b.bids }
      else { b with asks := ladderCancel order.price orderId b.asks }
    ({ b1 with
        store := Store.update b1.store orderId (fun o => { o with status := .cancelled }),
        ordersDir := dirErase b1.ordersDir orderId }, true)
  else (b, false)

def Book.getBestBid (b : Book) : ℚ :=
  match b.bids with
  | [] => 0
  | (p, _) :: _ => p

def Book.getBestAsk (b : Book) : ℚ :=
  match b.asks with
  | [] => 0
  | (p, _) :: _ => p

def levelQuantity (st : Store) (lvl : List Nat) : ℚ :=
  lvl.foldl (fun acc oid => acc + (Store.get st oid).getRemainingQuantity) 0

/-- The `std::map<double, double>` depth snapshot: an association list kept
sorted ascending by price, as that map iterates. -/
abbrev DepthMap := List (ℚ × ℚ)

def depthInsert (p v : ℚ) : DepthMap → DepthMap
  | [] => [(p, v)]
  | (q, w) :: rest =>
    if p < q then (p, v) :: (q, w) :: rest
    else if p = q then (p, v) :: rest
    else (q, w) :: depthInsert p v rest

/-- `OrderBook::getBidDepth`: walk the first `levels` bid levels best-first,
aggregate each level's remaining quantity, and record it in the
ascending-keyed result map. -/
def Book.getBidDepth (b : Book) (levels : Nat) : DepthMap :=
  (b.bids.take levels).foldl
    (fun d pl => depthInsert pl.1 (levelQuantity b.store pl.2) d) []

/-- `OrderBook::getAskDepth`. -/
def Book.getAskDepth (b : Book) (levels : Nat) : DepthMap :=
  (b.asks.take levels).foldl
    (fun d pl => depthInsert pl.1 (levelQuantity b.store pl.2) d) []

/-- `OrderBook::getUserOrders`: walk the directory. -/
def Book.getUserOrders (b : Book) (userId : String) : List Order :=
  (b.ordersDir.map (Store.get b.store)).filter (fun o => o.userId == userId)

inductive SubmitError where
  | invalidArgument
  | unknownPair
  | wrongPair
deriving DecidableEq, Repr

/-- `MatchingEngine`: the registry of books and the engine-wide id counter. -/
structure Engine where
  orderBooks : List (String × Book)
  orderIdCounter : Nat

def Engine.init : Engine := ⟨[], 0⟩

def booksLookup : List (String × Book) → String → Option Book
  | [], _ => none
  | (s, b) :: rest, k => if k = s then some b else booksLookup rest k

def booksInsert : List (String × Book) → String → Book → List (String × Book)
  | [], k, v => [(k, v)]
  | (s, b) :: rest, k, v =>
    if k = s then (k, v) :: rest else (s, b) :: booksInsert rest k v

/-- `MatchingEngine::addTradingPair`. -/
def Engine.addTradingPair (e : Engine) (pair : String) : Engine × Bool :=
  match booksLookup e.orderBooks pair with
  | some _ => (e, false)
  | none => ({ e with orderBooks := booksInsert e.orderBooks pair (Book.init pair) }, true)

/-- `generateOrderId`: `++orderIdCounter_` — the incremented value is the
fresh id. -/
def Engine.generateOrderId (e : Engine) : Nat × Engine :=
  (e.orderIdCounter + 1, { e with orderIdCounter := e.orderIdCounter + 1 })

/-- `MatchingEngine::submitOrder`.  The two argument validations and the
book lookup happen before the id is allocated; the pure translation returns
the unchanged engine on those failures, as the source leaves its state
untouched before throwing. -/
def Engine.submitOrder (e : Engine) (userId tradingPair : String) (side : OrderSide)
    (type : OrderType) (price quantity : ℚ) :
    Except SubmitError (List Trade) × Engine :=
  if quantity ≤ 0 then (.error .invalidArgument, e)
  else if type = .limit ∧ price ≤ 0 then (.error .invalidArgument, e)
  else
    match booksLookup e.orderBooks tradingPair with
    | none => (.error .unknownPair, e)
    | some book =>
      let g := Engine.generateOrderId e
      let order : Order :=
        ⟨g.1, userId, tradingPair, side, type, .pending, price, quantity, 0⟩
      match book.addOrder order with
      | .error _ => (.error .wrongPair, g.2)
      | .ok bt =>
        (.ok bt.2, { g.2 with orderBooks := booksInsert g.2.orderBooks tradingPair bt.1 })

/-- `MatchingEngine::cancelOrder`. -/
def Engine.cancelOrder (e : Engine) (orderId : Nat) (tradingPair : String) :
    Engine × Bool :=
  match booksLookup e.orderBooks tradingPair with
  | none => (e, false)
  | some book =>
    let r := book.cancelOrder orderId
    ({ e with orderBooks := booksInsert e.orderBooks tradingPair r.1 }, r.2)

/-- The engine's public mutating entry points, for stating reachable-state
invariants. -/
inductive EngineOp where
  | addPair (pair : String)
  | submit (userId pair : String) (side : OrderSide) (type : OrderType) (price quantity : ℚ)
  | cancel (orderId : Nat) (pair : String)

def EngineOp.apply (e : Engine) : EngineOp → Engine
  | .addPair p => (e.addTradingPair p).1
  | .submit u p sd ty px q => (e.submitOrder u p sd ty px q).2
  | .cancel oid p => (e.cancelOrder oid p).1

def runOps (ops : List EngineOp) : Engine :=
  ops.foldl EngineOp.apply Engine.init

/-- The id of the resting (maker) side of a trade, given the taker's side:
`executeTrade` receives the buyer first, so for a buying taker the maker is
the seller and conversely. -/
def Trade.makerOf (takerSide : OrderSide) (t : Trade) : Nat :=
  match takerSide with
  | .buy => t.sellOrderId
  | .sell => t.buyOrderId

/-- One iteration of the inner matching loop: the single
`executeTrade(...)` call of `OrderBook::matchOrder` with its arguments
ordered by the taker's side.  `matchLevel`'s step is definitionally this. -/
def tradeStep (st : Store) (tid mid : Nat) : Store × Trade :=
  if (Store.get st tid).side = OrderSide.buy then
    executeTrade st tid mid (Store.get st mid).price
      (min (Store.get st tid).getRemainingQuantity (Store.get st mid).getRemainingQuantity)
  else
    executeTrade st mid tid (Store.get st mid).price
      (min (Store.get st tid).getRemainingQuantity (Store.get st mid).getRemainingQuantity)

/-- The comparator ordering the ladder that `matchOrder` sweeps: a buying
taker consumes the asks (`std::less`), a selling taker the bids
(`std::greater`). -/
def oppBetter (sd : OrderSide) : ℚ → ℚ → Bool :=
  match sd with
  | .buy => askBetter
  | .sell => bidBetter

/-! ### Concrete runs used as evidence -/

/-- A resting sell limit 100×1 fully crossed by a buy limit 100×1: both
orders end filled. -/
def demoEngineA : Engine := runOps [
  .addPair "T",
  .submit "u1" "T" .sell .limit 100 1,
  .submit "u2" "T" .buy .limit 100 1]

def demoBookA : Book := (booksLookup demoEngineA.orderBooks "T").getD (Book.init "")

def demoCancelA : Engine × Bool := demoEngineA.cancelOrder 1 "T"

/-- A market sell on an empty book: nothing to match. -/
def demoEngineB : Engine := runOps [
  .addPair "T",
  .submit "u1" "T" .sell .market 0 1]

def demoBookB : Book := (booksLookup demoEngineB.orderBooks "T").getD (Book.init "")

/-- Two resting bids at different prices. -/
def demoEngineC : Engine := runOps [
  .addPair "T",
  .submit "u1" "T" .buy .limit 100 1,
  .submit "u2" "T" .buy .limit 90 2]

def demoBookC : Book := (booksLookup demoEngineC.orderBooks "T").getD (Book.init "")

def demoSubmit1 : Except SubmitError (List Trade) × Engine :=
  demoEngineB.submitOrder "u2" "T" .buy .limit 10 1

def demoSubmit2 : Except SubmitError (List Trade) × Engine :=
  demoSubmit1.2.submitOrder "u3" "T" .buy .limit 10 1

/-- A store with one resting sell maker (id 1, price 5) and one buy limit
taker (id 2, limit 10), and the ask level it rests on. -/
def demoStore7 : Store :=
  [(1, ⟨1, "m", "T", .sell, .limit, .pending, 5, 1, 0⟩),
   (2, ⟨2, "t", "T", .buy, .limit, .pending, 10, 1, 0⟩)]

def demoLadder7 : Ladder := [(5, [1])]

/-- Well-formedness of a book under an engine counter `cnt`, used to state
reachable-state invariants: every store entry's id is at most `cnt` and not
over-filled; every id resting on a ladder is at most `cnt` and references an
unfilled record; and no id rests twice. -/
def BookWF (cnt : Nat) (b : Book) : Prop :=
  (∀ p ∈ b.store, p.1 ≤ cnt ∧ p.2.filledQuantity ≤ p.2.quantity) ∧
  (∀ i ∈ ladderIds b.bids ++ ladderIds b.asks,
    i ≤ cnt ∧ (Store.get b.store i).isFilled = false) ∧
  (ladderIds b.bids ++ ladderIds b.asks).Nodup

/-- Every registered book of the engine is well formed. -/
def EngineWF (e : Engine) : Prop :=
  ∀ pb ∈ e.orderBooks, BookWF e.orderIdCounter pb.2

/-! ### Theorems -/

/-- C5: a submit that fails validation (non-positive quantity, non-positive
limit price, or unknown symbol) returns the corresponding error and leaves
the engine — every book and the id counter — exactly as it was. -/
theorem submit_failure_leaves_engine_unchanged (e : Engine) (u p : String)
    (sd : OrderSide) (ty : OrderType) (px q : ℚ) :
    (q ≤ 0 → Engine.submitOrder e u p sd ty px q = (.error .invalidArgument, e)) ∧
    (0 < q → ty = .limit → px ≤ 0 →
      Engine.submitOrder e u p sd ty px q = (.error .invalidArgument, e)) ∧
    (0 < q → (ty = .limit → 0 < px) → booksLookup e.orderBooks p = none →
      Engine.submitOrder e u p sd ty px q = (.error .unknownPair, e)) := by
  refine ⟨fun h => ?_, fun h1 h2 h3 => ?_, fun h1 h2 h3 => ?_⟩
  · simp [Engine.submitOrder, h]
  · simp [Engine.submitOrder, not_le.2 h1, h2, h3]
  · have hna : ¬ (ty = OrderType.limit ∧ px ≤ 0) := by
      rintro ⟨hty, hpx⟩
      exact absurd (h2 hty) (not_lt.2 hpx)
    simp [Engine.submitOrder, not_le.2 h1, hna, h3]

theorem submit_failure_leaves_engine_unchanged_witness :
    ((0 : ℚ) ≤ 0) ∧
      Engine.submitOrder Engine.init "u" "T" .buy .limit 1 0 =
        (.error .invalidArgument, Engine.init) :=
  ⟨by norm_num,
   (submit_failure_leaves_engine_unchanged Engine.init "u" "T" .buy .limit 1 0).1
     (by norm_num)⟩

/-- A successful submit advanced the id counter by exactly one. -/
theorem submit_ok_counter (e e' : Engine) (u p : String) (sd : OrderSide)
    (ty : OrderType) (px q : ℚ) (ts : List Trade)
    (h : Engine.submitOrder e u p sd ty px q = (.ok ts, e')) :
    e'.orderIdCounter = e.orderIdCounter + 1 := by
  unfold Engine.submitOrder at h
  split at h
  · simp at h
  · split at h
    · simp at h
    · split at h
      · simp at h
      · dsimp only at h
        split at h
        · simp at h
        · rw [Prod.mk.injEq] at h
          rw [← h.2]
          rfl

/-- C9: across two successive successful submits — on any trading pairs —
the later call allocates a strictly greater id, so ids are unique over the
engine's lifetime. -/
theorem submit_ids_strictly_increase (e1 e2 e3 : Engine)
    (u1 p1 : String) (sd1 : OrderSide) (ty1 : OrderType) (px1 q1 : ℚ) (ts1 : List Trade)
    (u2 p2 : String) (sd2 : OrderSide) (ty2 : OrderType) (px2 q2 : ℚ) (ts2 : List Trade)
    (h1 : Engine.submitOrder e1 u1 p1 sd1 ty1 px1 q1 = (.ok ts1, e2))
    (_h2 : Engine.submitOrder e2 u2 p2 sd2 ty2 px2 q2 = (.ok ts2, e3)) :
    (Engine.generateOrderId e1).1 < (Engine.generateOrderId e2).1 := by
  have hc := submit_ok_counter e1 e2 u1 p1 sd1 ty1 px1 q1 ts1 h1
  simp [Engine.generateOrderId, hc]

theorem submit_ids_strictly_increase_witness :
    (Engine.generateOrderId demoEngineB).1 < (Engine.generateOrderId demoSubmit1.2).1 := by
  have h1 : demoSubmit1.1 = .ok [⟨2, 1, 0, 1⟩] := by
    norm_num +decide [demoSubmit1, demoEngineB, runOps, EngineOp.apply, Engine.submitOrder,
      Engine.addTradingPair, Engine.generateOrderId, Engine.init, booksLookup, booksInsert,
      Book.init, Book.addOrder, Store.insertRec, dirInsert, matchLadder, matchLevel,
      executeTrade, applyFill, Store.update, Store.get, Order.isFilled,
      Order.getRemainingQuantity, priceAcceptable, ladderInsert, Order.default0,
      bidBetter, askBetter]
  have h2 : demoSubmit2.1 = .ok [] := by
    norm_num +decide [demoSubmit2, demoSubmit1, demoEngineB, runOps, EngineOp.apply,
      Engine.submitOrder, Engine.addTradingPair, Engine.generateOrderId, Engine.init,
      booksLookup, booksInsert, Book.init, Book.addOrder, Store.insertRec, dirInsert,
      matchLadder, matchLevel, executeTrade, applyFill, Store.update, Store.get,
      Order.isFilled, Order.getRemainingQuantity, priceAcceptable, ladderInsert,
      Order.default0, bidBetter, askBetter]
  exact submit_ids_strictly_increase demoEngineB demoSubmit1.2 demoSubmit2.2
    "u2" "T" .buy .limit 10 1 [⟨2, 1, 0, 1⟩] "u3" "T" .buy .limit 10 1 []
    (Prod.ext h1 rfl) (Prod.ext h2 rfl)

theorem Store.get_update_ne (s : Store) (k i : Nat) (f : Order → Order) (h : i ≠ k) :
    Store.get (Store.update s k f) i = Store.get s i := by
  induction s with
  | nil => rfl
  | cons hd tl ih =>
    obtain ⟨k', o⟩ := hd
    by_cases hk : k = k'
    · subst hk
      simp [Store.update, Store.get, h]
    · simp only [Store.update, if_neg hk]
      by_cases hi : i = k'
      · simp [Store.get, hi]
      · simp [Store.get, hi, ih]

theorem dirErase_mem_ne (d : List Nat) (k i : Nat) (h : i ≠ k) :
    i ∈ dirErase d k ↔ i ∈ d := by
  induction d with
  | nil => simp [dirErase]
  | cons hd tl ih =>
    by_cases hk : k = hd
    · subst hk
      simp [dirErase, List.mem_cons, h]
    · simp [dirErase, hk, List.mem_cons, ih]

theorem ladderCancel_keep (lad : Ladder) (p : ℚ) (i : Nat) (q : ℚ) (lvl : List Nat)
    (hm : (q, lvl) ∈ lad) (hq : q ≠ p) : (q, lvl) ∈ ladderCancel p i lad := by
  induction lad with
  | nil => simp at hm
  | cons hd tl ih =>
    obtain ⟨r, l0⟩ := hd
    rcases List.mem_cons.1 hm with heq | hm'
    · have hr : r ≠ p := by
        rw [Prod.mk.injEq] at heq
        rw [← heq.1]
        exact hq
      simp [ladderCancel, hr, heq]
    · by_cases hr : r = p
      · simp only [ladderCancel, if_pos hr]
        split
        · exact hm'
        · exact List.mem_cons_of_mem _ hm'
      · simp only [ladderCancel, if_neg hr]
        exact List.mem_cons_of_mem _ (ih hm')

theorem ladderCancel_level (lad : Ladder) (p : ℚ) (i : Nat) (lvl : List Nat)
    (hnd : (lad.map Prod.fst).Nodup) (hm : (p, lvl) ∈ lad)
    (hne : lvl.filter (fun x => !(x == i)) ≠ []) :
    (p, lvl.filter (fun x => !(x == i))) ∈ ladderCancel p i lad := by
  induction lad with
  | nil => simp at hm
  | cons hd tl ih =>
    obtain ⟨r, l0⟩ := hd
    rcases List.mem_cons.1 hm with heq | hm'
    · rw [Prod.mk.injEq] at heq
      obtain ⟨h1, h2⟩ := heq
      subst h1
      subst h2
      have hcond : ¬((lvl.filter (fun x => !(x == i))).isEmpty = true) := by
        rw [List.isEmpty_iff]
        exact hne
      simp only [ladderCancel, if_pos rfl, if_neg hcond]
      exact List.mem_cons_self _ _
    · have hr : r ≠ p := by
        intro hr
        subst hr
        exact (List.nodup_cons.1 hnd).1 (List.mem_map.2 ⟨(r, lvl), hm', rfl⟩)
      simp only [ladderCancel, if_neg hr]
      exact List.mem_cons_of_mem _ (ih (List.nodup_cons.1 hnd).2 hm')

/-- C10: a successful `cancelOrder id` touches nothing but the cancelled
order: every other record in the store is unchanged, every other id keeps
its directory membership, the opposite-side ladder is untouched, the
same-side ladder is rewritten only by removing `id` from the level at the
order's price (which preserves the relative FIFO order of that level's
other orders and leaves all other levels in place). -/
theorem cancel_only_affects_cancelled_order (b : Book) (oid : Nat) (b' : Book)
    (h : Book.cancelOrder b oid = (b', true)) :
    (∀ i, i ≠ oid → Store.get b'.store i = Store.get b.store i) ∧
    (∀ i, i ≠ oid → (i ∈ b'.ordersDir ↔ i ∈ b.ordersDir)) ∧
    ((Store.get b.store oid).side = .buy →
      b'.asks = b.asks ∧
      b'.bids = ladderCancel (Store.get b.store oid).price oid b.bids) ∧
    ((Store.get b.store oid).side = .sell →
      b'.bids = b.bids ∧
      b'.asks = ladderCancel (Store.get b.store oid).price oid b.asks) ∧
    (∀ (lad : Ladder) (p : ℚ) (i : Nat) (q : ℚ) (lvl : List Nat),
      (q, lvl) ∈ lad → q ≠ p → (q, lvl) ∈ ladderCancel p i lad) ∧
    (∀ (lad : Ladder) (p : ℚ) (i : Nat) (lvl : List Nat),
      (lad.map Prod.fst).Nodup → (p, lvl) ∈ lad →
      lvl.filter (fun x => !(x == i)) ≠ [] →
      (p, lvl.filter (fun x => !(x == i))) ∈ ladderCancel p i lad) := by
  unfold Book.cancelOrder at h
  split at h
  case isFalse => simp at h
  case isTrue hmem =>
    rw [Prod.mk.injEq] at h
    obtain ⟨hb, -⟩ := h
    subst hb
    refine ⟨fun i hi => ?_, fun i hi => ?_, fun hside => ?_, fun hside => ?_,
      ladderCancel_keep, ladderCancel_level⟩
    · by_cases hs : (Store.get b.store oid).side = OrderSide.buy <;>
        simp [hs, Store.get_update_ne _ _ _ _ hi]
    · by_cases hs : (Store.get b.store oid).side = OrderSide.buy <;>
        simp [hs, dirErase_mem_ne _ _ _ hi]
    · constructor <;> simp [hside]
    · have hs : (Store.get b.store oid).side ≠ OrderSide.buy := by
        rw [hside]
        intro hc
        cases hc
      constructor <;> simp [hs]

theorem cancel_only_affects_cancelled_order_witness :
    Store.get ((Book.cancelOrder demoBookC 1).1.store) 2 = Store.get demoBookC.store 2 := by
  have hc : Book.cancelOrder demoBookC 1 =
      ((Book.cancelOrder demoBookC 1).1, true) := by
    refine Prod.ext rfl ?_
    norm_num +decide [demoBookC, demoEngineC, runOps, EngineOp.apply, Engine.submitOrder,
      Engine.addTradingPair, Engine.generateOrderId, Engine.init, booksLookup, booksInsert,
      Book.init, Book.addOrder, Store.insertRec, dirInsert, matchLadder, matchLevel,
      executeTrade, applyFill, Store.update, Store.get, Order.isFilled,
      Order.getRemainingQuantity, priceAcceptable, ladderInsert, Order.default0,
      bidBetter, askBetter, Book.cancelOrder, ladderCancel, dirErase]
  exact (cancel_only_affects_cancelled_order demoBookC 1 (Book.cancelOrder demoBookC 1).1 hc).1
    2 (by norm_num)

theorem depthInsert_front (p v : ℚ) (d : DepthMap) (h : ∀ x ∈ d, p < x.1) :
    depthInsert p v d = (p, v) :: d := by
  cases d with
  | nil => rfl
  | cons hd tl =>
    obtain ⟨q, w⟩ := hd
    simp only [depthInsert, if_pos (h (q, w) (List.mem_cons_self _ _))]

theorem depthInsert_back (p v : ℚ) (d : DepthMap) (h : ∀ x ∈ d, x.1 < p) :
    depthInsert p v d = d ++ [(p, v)] := by
  induction d with
  | nil => rfl
  | cons hd tl ih =>
    obtain ⟨q, w⟩ := hd
    have hq : q < p := h (q, w) (List.mem_cons_self _ _)
    rw [depthInsert, if_neg (by exact fun hc => absurd (hc.trans hq) (lt_irrefl p)),
      if_neg (by exact fun hc => absurd (hc ▸ hq) (lt_irrefl p)),
      ih (fun x hx => h x (List.mem_cons_of_mem _ hx))]
    rfl

theorem foldl_depthInsert_desc (l : List (ℚ × ℚ)) (acc : DepthMap)
    (hl : List.Pairwise (fun x y : ℚ × ℚ => y.1 < x.1) l)
    (hacc : ∀ a ∈ acc, ∀ x ∈ l, x.1 < a.1) :
    l.foldl (fun d kv => depthInsert kv.1 kv.2 d) acc = l.reverse ++ acc := by
  induction l generalizing acc with
  | nil => simp
  | cons hd tl ih =>
    rw [List.foldl_cons,
      depthInsert_front hd.1 hd.2 acc (fun x hx => hacc x hx hd (List.mem_cons_self _ _)),
      ih ((hd.1, hd.2) :: acc) (List.pairwise_cons.1 hl).2 ?_]
    · simp
    · intro a ha x hx
      rcases List.mem_cons.1 ha with rfl | ha'
      · exact (List.pairwise_cons.1 hl).1 x hx
      · exact hacc a ha' x (List.mem_cons_of_mem _ hx)

theorem foldl_depthInsert_asc (l : List (ℚ × ℚ)) (acc : DepthMap)
    (hl : List.Pairwise (fun x y : ℚ × ℚ => x.1 < y.1) l)
    (hacc : ∀ a ∈ acc, ∀ x ∈ l, a.1 < x.1) :
    l.foldl (fun d kv => depthInsert kv.1 kv.2 d) acc = acc ++ l := by
  induction l generalizing acc with
  | nil => simp
  | cons hd tl ih =>
    rw [List.foldl_cons,
      depthInsert_back hd.1 hd.2 acc (fun x hx => hacc x hx hd (List.mem_cons_self _ _)),
      ih (acc ++ [(hd.1, hd.2)]) (List.pairwise_cons.1 hl).2 ?_]
    · simp
    · intro a ha x hx
      rcases List.mem_append.1 ha with ha' | ha'
      · exact hacc a ha' x (List.mem_cons_of_mem _ hx)
      · rcases List.mem_singleton.1 ha' with rfl
        exact (List.pairwise_cons.1 hl).1 x hx

/-- C4 (amended): the depth queries return the first k levels of the
corresponding ladder (fewer when it is shallower) with the level's total
remaining quantity, but both as an ascending-by-price map: for the ask side
that is best-first order, while the bid-side sequence comes out ascending,
i.e. reversed from best-first. -/
theorem depth_best_k_levels (b : Book) (k : Nat)
    (hb : List.Pairwise (fun x y : ℚ => y < x) (b.bids.map Prod.fst))
    (ha : List.Pairwise (fun x y : ℚ => x < y) (b.asks.map Prod.fst)) :
    Book.getBidDepth b k =
      ((b.bids.take k).map (fun pl => (pl.1, levelQuantity b.store pl.2))).reverse ∧
    Book.getAskDepth b k =
      (b.asks.take k).map (fun pl => (pl.1, levelQuantity b.store pl.2)) ∧
    List.Pairwise (fun x y : ℚ × ℚ => x.1 < y.1) (Book.getBidDepth b k) ∧
    List.Pairwise (fun x y : ℚ × ℚ => x.1 < y.1) (Book.getAskDepth b k) := by
  have hbp : List.Pairwise (fun x y : ℚ × ℚ => y.1 < x.1)
      ((b.bids.take k).map (fun pl => (pl.1, levelQuantity b.store pl.2))) := by
    rw [List.pairwise_map]
    exact ((List.pairwise_map.1 hb).sublist (List.take_sublist k b.bids))
  have hap : List.Pairwise (fun x y : ℚ × ℚ => x.1 < y.1)
      ((b.asks.take k).map (fun pl => (pl.1, levelQuantity b.store pl.2))) := by
    rw [List.pairwise_map]
    exact ((List.pairwise_map.1 ha).sublist (List.take_sublist k b.asks))
  have hbid : Book.getBidDepth b k =
      ((b.bids.take k).map (fun pl => (pl.1, levelQuantity b.store pl.2))).reverse := by
    rw [Book.getBidDepth, ← List.foldl_map
      (fun pl : ℚ × List Nat => (pl.1, levelQuantity b.store pl.2))
      (fun d kv => depthInsert kv.1 kv.2 d),
      foldl_depthInsert_desc _ [] hbp (by simp), List.append_nil]
  have hask : Book.getAskDepth b k =
      (b.asks.take k).map (fun pl => (pl.1, levelQuantity b.store pl.2)) := by
    rw [Book.getAskDepth, ← List.foldl_map
      (fun pl : ℚ × List Nat => (pl.1, levelQuantity b.store pl.2))
      (fun d kv => depthInsert kv.1 kv.2 d),
      foldl_depthInsert_asc _ [] hap (by simp), List.nil_append]
  refine ⟨hbid, hask, ?_, ?_⟩
  · rw [hbid, List.pairwise_reverse]
    exact hbp
  · rw [hask]
    exact hap

/-- C4 (counterexample): with resting bids at 100 and 90, the bid-depth
snapshot comes back as [(90, 2), (100, 1)] — ascending prices — refuting
the claim that the returned bid sequence is descending best-first. -/
theorem bid_depth_sequence_not_descending :
    (Book.getBidDepth demoBookC 10).map Prod.fst = [90, 100] ∧
    ¬ List.Chain' (fun x y : ℚ => y < x) ((Book.getBidDepth demoBookC 10).map Prod.fst) := by
  have h : Book.getBidDepth demoBookC 10 = [(90, 2), (100, 1)] := by
    norm_num +decide [demoBookC, demoEngineC, runOps, EngineOp.apply, Engine.submitOrder,
      Engine.addTradingPair, Engine.generateOrderId, Engine.init, booksLookup, booksInsert,
      Book.init, Book.addOrder, Store.insertRec, dirInsert, matchLadder, matchLevel,
      executeTrade, applyFill, Store.update, Store.get, Order.isFilled,
      Order.getRemainingQuantity, priceAcceptable, ladderInsert, Order.default0,
      bidBetter, askBetter, Book.getBidDepth, levelQuantity, depthInsert]
  rw [h]
  constructor
  · rfl
  · intro hc
    have := (List.chain'_cons.1 hc).1
    norm_num at this

theorem depth_best_k_levels_witness :
    Book.getBidDepth demoBookC 10 =
      ((demoBookC.bids.take 10).map
        (fun pl => (pl.1, levelQuantity demoBookC.store pl.2))).reverse := by
  have hbids : demoBookC.bids = [(100, [1]), (90, [2])] := by
    norm_num +decide [demoBookC, demoEngineC, runOps, EngineOp.apply, Engine.submitOrder,
      Engine.addTradingPair, Engine.generateOrderId, Engine.init, booksLookup, booksInsert,
      Book.init, Book.addOrder, Store.insertRec, dirInsert, matchLadder, matchLevel,
      executeTrade, applyFill, Store.update, Store.get, Order.isFilled,
      Order.getRemainingQuantity, priceAcceptable, ladderInsert, Order.default0,
      bidBetter, askBetter]
  have hasks : demoBookC.asks = [] := by
    norm_num +decide [demoBookC, demoEngineC, runOps, EngineOp.apply, Engine.submitOrder,
      Engine.addTradingPair, Engine.generateOrderId, Engine.init, booksLookup, booksInsert,
      Book.init, Book.addOrder, Store.insertRec, dirInsert, matchLadder, matchLevel,
      executeTrade, applyFill, Store.update, Store.get, Order.isFilled,
      Order.getRemainingQuantity, priceAcceptable, ladderInsert, Order.default0,
      bidBetter, askBetter]
  refine (depth_best_k_levels demoBookC 10 ?_ ?_).1
  · rw [hbids]
    norm_num [List.pairwise_cons]
  · rw [hasks]
    simp

/-! ### Matching-step lemmas -/

theorem applyFill_preserves (q : ℚ) (o : Order) :
    (applyFill q o).price = o.price ∧ (applyFill q o).side = o.side ∧
    (applyFill q o).quantity = o.quantity ∧ (applyFill q o).type = o.type := by
  by_cases h1 : ({ o with filledQuantity := o.filledQuantity + q } : Order).isFilled
  · simp [applyFill, h1]
  · by_cases h2 : (0 : ℚ) < o.filledQuantity + q
    · simp [applyFill, h1, h2]
    · simp [applyFill, h1, h2]

theorem applyFill_filledQuantity (q : ℚ) (o : Order) :
    (applyFill q o).filledQuantity = o.filledQuantity + q := by
  by_cases h1 : ({ o with filledQuantity := o.filledQuantity + q } : Order).isFilled
  · simp [applyFill, h1]
  · by_cases h2 : (0 : ℚ) < o.filledQuantity + q
    · simp [applyFill, h1, h2]
    · simp [applyFill, h1, h2]

theorem Store.get_update_cases (s : Store) (k i : Nat) (f : Order → Order) :
    Store.get (Store.update s k f) i = Store.get s i ∨
    Store.get (Store.update s k f) i = f (Store.get s i) := by
  induction s with
  | nil => exact Or.inl rfl
  | cons hd tl ih =>
    obtain ⟨k', o⟩ := hd
    by_cases hk : k = k'
    · subst hk
      by_cases hik : i = k
      · right
        simp [Store.update, Store.get, hik]
      · left
        simp [Store.update, Store.get, hik]
    · by_cases hik : i = k'
      · left
        simp [Store.update, hk, Store.get, hik]
      · simpa [Store.update, hk, Store.get, hik] using ih

theorem Store.get_update_mem (s : Store) (k : Nat) (f : Order → Order)
    (h : k ∈ Store.keys s) : Store.get (Store.update s k f) k = f (Store.get s k) := by
  induction s with
  | nil => simp [Store.keys] at h
  | cons hd tl ih =>
    obtain ⟨k', o⟩ := hd
    by_cases hk : k = k'
    · subst hk
      simp [Store.update, Store.get]
    · have h' : k ∈ Store.keys tl := by
        simpa [Store.keys, hk] using h
      simpa [Store.update, hk, Store.get, hk] using ih h'

theorem executeTrade_get_proj (st : Store) (b s i : Nat) (px q : ℚ) :
    (Store.get (executeTrade st b s px q).1 i).price = (Store.get st i).price ∧
    (Store.get (executeTrade st b s px q).1 i).side = (Store.get st i).side ∧
    (Store.get (executeTrade st b s px q).1 i).quantity = (Store.get st i).quantity ∧
    (Store.get (executeTrade st b s px q).1 i).type = (Store.get st i).type := by
  have step : ∀ (s0 : Store) (k : Nat),
      (Store.get (Store.update s0 k (applyFill q)) i).price = (Store.get s0 i).price ∧
      (Store.get (Store.update s0 k (applyFill q)) i).side = (Store.get s0 i).side ∧
      (Store.get (Store.update s0 k (applyFill q)) i).quantity = (Store.get s0 i).quantity ∧
      (Store.get (Store.update s0 k (applyFill q)) i).type = (Store.get s0 i).type := by
    intro s0 k
    rcases Store.get_update_cases s0 k i (applyFill q) with h | h
    · rw [h]
      exact ⟨rfl, rfl, rfl, rfl⟩
    · rw [h]
      exact applyFill_preserves q (Store.get s0 i)
  obtain ⟨p1, s1, q1, t1⟩ := step (Store.update st b (applyFill q)) s
  obtain ⟨p2, s2, q2, t2⟩ := step st b
  exact ⟨p1.trans p2, s1.trans s2, q1.trans q2, t1.trans t2⟩

/-- Unfolding equation of `matchLevel` on a nonempty level, phrased with
`tradeStep` (which is definitionally the loop body's trade). -/
theorem matchLevel_cons (st : Store) (tid mid : Nat) (rest : List Nat) :
    matchLevel st tid (mid :: rest) =
      if (Store.get st tid).isFilled = true then (st, mid :: rest, [])
      else if (Store.get (tradeStep st tid mid).1 mid).isFilled = true then
        ((matchLevel (tradeStep st tid mid).1 tid rest).1,
         (matchLevel (tradeStep st tid mid).1 tid rest).2.1,
         (tradeStep st tid mid).2 :: (matchLevel (tradeStep st tid mid).1 tid rest).2.2)
      else ((tradeStep st tid mid).1, mid :: rest, [(tradeStep st tid mid).2]) := rfl

/-- Unfolding equation of `matchLadder` on a nonempty ladder. -/
theorem matchLadder_cons (st : Store) (tid : Nat) (price : ℚ) (lvl : List Nat)
    (rest : Ladder) :
    matchLadder st tid ((price, lvl) :: rest) =
      if (Store.get st tid).isFilled = true then (st, (price, lvl) :: rest, [])
      else if (Store.get st tid).type = OrderType.limit ∧
          priceAcceptable (Store.get st tid) price = false then
        (st, (price, lvl) :: rest, [])
      else if (matchLevel st tid lvl).2.1.isEmpty = true then
        ((matchLadder (matchLevel st tid lvl).1 tid rest).1,
         (matchLadder (matchLevel st tid lvl).1 tid rest).2.1,
         (matchLevel st tid lvl).2.2 ++ (matchLadder (matchLevel st tid lvl).1 tid rest).2.2)
      else ((matchLevel st tid lvl).1, (price, (matchLevel st tid lvl).2.1) :: rest,
        (matchLevel st tid lvl).2.2) := rfl

theorem tradeStep_get_proj (st : Store) (tid mid i : Nat) :
    (Store.get (tradeStep st tid mid).1 i).price = (Store.get st i).price ∧
    (Store.get (tradeStep st tid mid).1 i).side = (Store.get st i).side ∧
    (Store.get (tradeStep st tid mid).1 i).quantity = (Store.get st i).quantity ∧
    (Store.get (tradeStep st tid mid).1 i).type = (Store.get st i).type := by
  unfold tradeStep
  by_cases hs : (Store.get st tid).side = OrderSide.buy
  · rw [if_pos hs]
    exact executeTrade_get_proj st tid mid i _ _
  · rw [if_neg hs]
    exact executeTrade_get_proj st mid tid i _ _

theorem matchLevel_get_proj (tid : Nat) (lvl : List Nat) (st : Store) (i : Nat) :
    (Store.get (matchLevel st tid lvl).1 i).price = (Store.get st i).price ∧
    (Store.get (matchLevel st tid lvl).1 i).side = (Store.get st i).side ∧
    (Store.get (matchLevel st tid lvl).1 i).quantity = (Store.get st i).quantity ∧
    (Store.get (matchLevel st tid lvl).1 i).type = (Store.get st i).type := by
  induction lvl generalizing st with
  | nil => exact ⟨rfl, rfl, rfl, rfl⟩
  | cons mid rest ih =>
    rw [matchLevel_cons]
    by_cases h1 : (Store.get st tid).isFilled = true
    · rw [if_pos h1]
      exact ⟨rfl, rfl, rfl, rfl⟩
    · rw [if_neg h1]
      by_cases h2 : (Store.get (tradeStep st tid mid).1 mid).isFilled = true
      · rw [if_pos h2]
        obtain ⟨pa, sa, qa, ta⟩ := ih (tradeStep st tid mid).1
        obtain ⟨pb, sb, qb, tb⟩ := tradeStep_get_proj st tid mid i
        exact ⟨pa.trans pb, sa.trans sb, qa.trans qb, ta.trans tb⟩
      · rw [if_neg h2]
        exact tradeStep_get_proj st tid mid i

theorem matchLadder_get_proj (tid : Nat) (lad : Ladder) (st : Store) (i : Nat) :
    (Store.get (matchLadder st tid lad).1 i).price = (Store.get st i).price ∧
    (Store.get (matchLadder st tid lad).1 i).side = (Store.get st i).side ∧
    (Store.get (matchLadder st tid lad).1 i).quantity = (Store.get st i).quantity ∧
    (Store.get (matchLadder st tid lad).1 i).type = (Store.get st i).type := by
  induction lad generalizing st with
  | nil => exact ⟨rfl, rfl, rfl, rfl⟩
  | cons hd rest ih =>
    obtain ⟨price, lvl⟩ := hd
    rw [matchLadder_cons]
    by_cases h1 : (Store.get st tid).isFilled = true
    · rw [if_pos h1]
      exact ⟨rfl, rfl, rfl, rfl⟩
    · rw [if_neg h1]
      by_cases h2 : (Store.get st tid).type = OrderType.limit ∧
          priceAcceptable (Store.get st tid) price = false
      · rw [if_pos h2]
        exact ⟨rfl, rfl, rfl, rfl⟩
      · rw [if_neg h2]
        by_cases h3 : (matchLevel st tid lvl).2.1.isEmpty = true
        · rw [if_pos h3]
          obtain ⟨pa, sa, qa, ta⟩ := ih (matchLevel st tid lvl).1
          obtain ⟨pb, sb, qb, tb⟩ := matchLevel_get_proj tid lvl st i
          exact ⟨pa.trans pb, sa.trans sb, qa.trans qb, ta.trans tb⟩
        · rw [if_neg h3]
          exact matchLevel_get_proj tid lvl st i

theorem Order.isFilled_false_iff (o : Order) :
    o.isFilled = false ↔ 0 < o.getRemainingQuantity := by
  rw [Order.isFilled, Order.getRemainingQuantity, decide_eq_false_iff_not, not_le, sub_pos]

theorem Store.keys_update (s : Store) (k : Nat) (f : Order → Order) :
    Store.keys (Store.update s k f) = Store.keys s := by
  induction s with
  | nil => rfl
  | cons hd tl ih =>
    obtain ⟨k', o⟩ := hd
    by_cases hk : k = k'
    · simp [Store.update, hk, Store.keys]
    · simpa [Store.update, hk, Store.keys] using ih

theorem Store.mem_update_cases (s : Store) (k : Nat) (f : Order → Order) :
    ∀ p ∈ Store.update s k f,
      p ∈ s ∨ (p = (k, f (Store.get s k)) ∧ k ∈ Store.keys s) := by
  induction s with
  | nil => intro p hp; exact absurd hp (by simp [Store.update])
  | cons hd tl ih =>
    obtain ⟨k', o⟩ := hd
    intro p hp
    by_cases hk : k = k'
    · subst hk
      rw [Store.update, if_pos rfl] at hp
      rcases List.mem_cons.1 hp with rfl | hp'
      · right
        exact ⟨by simp [Store.get], by simp [Store.keys]⟩
      · exact Or.inl (List.mem_cons_of_mem _ hp')
    · rw [Store.update, if_neg hk] at hp
      rcases List.mem_cons.1 hp with rfl | hp'
      · exact Or.inl (List.mem_cons_self _ _)
      · rcases ih p hp' with h | ⟨h, hm⟩
        · exact Or.inl (List.mem_cons_of_mem _ h)
        · right
          constructor
          · rw [h, Store.get, if_neg (fun hc => hk hc)]
          · rw [Store.keys, List.map_cons]
            exact List.mem_cons_of_mem _ hm

theorem executeTrade_frame (st : Store) (b s : Nat) (px q : ℚ) (i : Nat)
    (hb : i ≠ b) (hs : i ≠ s) :
    Store.get (executeTrade st b s px q).1 i = Store.get st i := by
  rw [executeTrade, Store.get_update_ne _ _ _ _ hs, Store.get_update_ne _ _ _ _ hb]

theorem executeTrade_keys (st : Store) (b s : Nat) (px q : ℚ) :
    Store.keys (executeTrade st b s px q).1 = Store.keys st := by
  rw [executeTrade, Store.keys_update, Store.keys_update]

theorem tradeStep_frame (st : Store) (tid mid i : Nat) (ht : i ≠ tid) (hm : i ≠ mid) :
    Store.get (tradeStep st tid mid).1 i = Store.get st i := by
  unfold tradeStep
  by_cases hs : (Store.get st tid).side = OrderSide.buy
  · rw [if_pos hs]
    exact executeTrade_frame st tid mid _ _ i ht hm
  · rw [if_neg hs]
    exact executeTrade_frame st mid tid _ _ i hm ht

theorem tradeStep_keys (st : Store) (tid mid : Nat) :
    Store.keys (tradeStep st tid mid).1 = Store.keys st := by
  unfold tradeStep
  by_cases hs : (Store.get st tid).side = OrderSide.buy
  · rw [if_pos hs, executeTrade_keys]
  · rw [if_neg hs, executeTrade_keys]

theorem tradeStep_trade (st : Store) (tid mid : Nat) :
    (tradeStep st tid mid).2.price = (Store.get st mid).price ∧
    (tradeStep st tid mid).2.quantity =
      min (Store.get st tid).getRemainingQuantity (Store.get st mid).getRemainingQuantity ∧
    Trade.makerOf (Store.get st tid).side (tradeStep st tid mid).2 = mid := by
  unfold tradeStep
  cases hs : (Store.get st tid).side with
  | buy =>
    rw [if_pos rfl]
    exact ⟨rfl, rfl, rfl⟩
  | sell =>
    rw [if_neg (fun h => OrderSide.noConfusion h)]
    exact ⟨rfl, rfl, rfl⟩

theorem matchLevel_keys (tid : Nat) (lvl : List Nat) (st : Store) :
    Store.keys (matchLevel st tid lvl).1 = Store.keys st := by
  induction lvl generalizing st with
  | nil => rfl
  | cons mid rest ih =>
    rw [matchLevel_cons]
    by_cases h1 : (Store.get st tid).isFilled = true
    · rw [if_pos h1]
    · rw [if_neg h1]
      by_cases h2 : (Store.get (tradeStep st tid mid).1 mid).isFilled = true
      · rw [if_pos h2]
        exact (ih (tradeStep st tid mid).1).trans (tradeStep_keys st tid mid)
      · rw [if_neg h2]
        exact tradeStep_keys st tid mid

theorem matchLadder_keys (tid : Nat) (lad : Ladder) (st : Store) :
    Store.keys (matchLadder st tid lad).1 = Store.keys st := by
  induction lad generalizing st with
  | nil => rfl
  | cons hd rest ih =>
    obtain ⟨price, lvl⟩ := hd
    rw [matchLadder_cons]
    by_cases h1 : (Store.get st tid).isFilled = true
    · rw [if_pos h1]
    · rw [if_neg h1]
      by_cases h2 : (Store.get st tid).type = OrderType.limit ∧
          priceAcceptable (Store.get st tid) price = false
      · rw [if_pos h2]
      · rw [if_neg h2]
        by_cases h3 : (matchLevel st tid lvl).2.1.isEmpty = true
        · rw [if_pos h3]
          exact (ih (matchLevel st tid lvl).1).trans (matchLevel_keys tid lvl st)
        · rw [if_neg h3]
          exact matchLevel_keys tid lvl st

theorem matchLevel_frame (tid : Nat) (lvl : List Nat) (st : Store) (i : Nat)
    (ht : i ≠ tid) (hl : i ∉ lvl) :
    Store.get (matchLevel st tid lvl).1 i = Store.get st i := by
  induction lvl generalizing st with
  | nil => rfl
  | cons mid rest ih =>
    have hm : i ≠ mid := fun hc => hl (hc ▸ List.mem_cons_self _ _)
    have hr : i ∉ rest := fun hc => hl (List.mem_cons_of_mem _ hc)
    rw [matchLevel_cons]
    by_cases h1 : (Store.get st tid).isFilled = true
    · rw [if_pos h1]
    · rw [if_neg h1]
      by_cases h2 : (Store.get (tradeStep st tid mid).1 mid).isFilled = true
      · rw [if_pos h2]
        exact (ih (tradeStep st tid mid).1 hr).trans (tradeStep_frame st tid mid i ht hm)
      · rw [if_neg h2]
        exact tradeStep_frame st tid mid i ht hm

theorem matchLevel_sublist (tid : Nat) (lvl : List Nat) (st : Store) :
    List.Sublist (matchLevel st tid lvl).2.1 lvl := by
  induction lvl generalizing st with
  | nil => exact List.Sublist.refl _
  | cons mid rest ih =>
    rw [matchLevel_cons]
    by_cases h1 : (Store.get st tid).isFilled = true
    · rw [if_pos h1]
    · rw [if_neg h1]
      by_cases h2 : (Store.get (tradeStep st tid mid).1 mid).isFilled = true
      · rw [if_pos h2]
        exact (ih (tradeStep st tid mid).1).trans (List.sublist_cons_self mid rest)
      · rw [if_neg h2]

theorem ladderIds_cons (price : ℚ) (lvl : List Nat) (rest : Ladder) :
    ladderIds ((price, lvl) :: rest) = lvl ++ ladderIds rest := rfl

theorem matchLadder_frame (tid : Nat) (lad : Ladder) (st : Store) (i : Nat)
    (ht : i ≠ tid) (hl : i ∉ ladderIds lad) :
    Store.get (matchLadder st tid lad).1 i = Store.get st i := by
  induction lad generalizing st with
  | nil => rfl
  | cons hd rest ih =>
    obtain ⟨price, lvl⟩ := hd
    rw [ladderIds_cons] at hl
    have hlv : i ∉ lvl := fun hc => hl (List.mem_append.2 (Or.inl hc))
    have hrs : i ∉ ladderIds rest := fun hc => hl (List.mem_append.2 (Or.inr hc))
    rw [matchLadder_cons]
    by_cases h1 : (Store.get st tid).isFilled = true
    · rw [if_pos h1]
    · rw [if_neg h1]
      by_cases h2 : (Store.get st tid).type = OrderType.limit ∧
          priceAcceptable (Store.get st tid) price = false
      · rw [if_pos h2]
      · rw [if_neg h2]
        by_cases h3 : (matchLevel st tid lvl).2.1.isEmpty = true
        · rw [if_pos h3]
          exact (ih (matchLevel st tid lvl).1 hrs).trans (matchLevel_frame tid lvl st i ht hlv)
        · rw [if_neg h3]
          exact matchLevel_frame tid lvl st i ht hlv

theorem matchLadder_ids_sublist (tid : Nat) (lad : Ladder) (st : Store) :
    List.Sublist (ladderIds (matchLadder st tid lad).2.1) (ladderIds lad) := by
  induction lad generalizing st with
  | nil => exact List.Sublist.refl _
  | cons hd rest ih =>
    obtain ⟨price, lvl⟩ := hd
    rw [matchLadder_cons, ladderIds_cons]
    by_cases h1 : (Store.get st tid).isFilled = true
    · rw [if_pos h1]
      exact List.Sublist.refl _
    · rw [if_neg h1]
      by_cases h2 : (Store.get st tid).type = OrderType.limit ∧
          priceAcceptable (Store.get st tid) price = false
      · rw [if_pos h2]
        exact List.Sublist.refl _
      · rw [if_neg h2]
        by_cases h3 : (matchLevel st tid lvl).2.1.isEmpty = true
        · rw [if_pos h3]
          exact ((ih (matchLevel st tid lvl).1).trans (List.sublist_append_right lvl _))
        · rw [if_neg h3]
          exact (matchLevel_sublist tid lvl st).append (List.Sublist.refl _)

theorem matchLevel_trades_maker (tid : Nat) (lvl : List Nat) (st : Store) :
    ∀ t ∈ (matchLevel st tid lvl).2.2,
      Trade.makerOf (Store.get st tid).side t ∈ lvl ∧
      t.price = (Store.get st (Trade.makerOf (Store.get st tid).side t)).price := by
  induction lvl generalizing st with
  | nil =>
    intro t ht
    exact absurd ht (List.not_mem_nil t)
  | cons mid rest ih =>
    rw [matchLevel_cons]
    by_cases h1 : (Store.get st tid).isFilled = true
    · rw [if_pos h1]
      intro t ht
      exact absurd ht (List.not_mem_nil t)
    · rw [if_neg h1]
      by_cases h2 : (Store.get (tradeStep st tid mid).1 mid).isFilled = true
      · rw [if_pos h2]
        intro t ht
        rcases List.mem_cons.1 ht with rfl | ht'
        · refine ⟨?_, ?_⟩
          · rw [(tradeStep_trade st tid mid).2.2]
            exact List.mem_cons_self _ _
          · rw [(tradeStep_trade st tid mid).2.2, (tradeStep_trade st tid mid).1]
        · have hside := (tradeStep_get_proj st tid mid tid).2.1
          obtain ⟨hm, hp⟩ := ih (tradeStep st tid mid).1 t ht'
          rw [hside] at hm hp
          refine ⟨List.mem_cons_of_mem _ hm, ?_⟩
          rw [hp, (tradeStep_get_proj st tid mid _).1]
      · rw [if_neg h2]
        intro t ht
        rcases List.mem_singleton.1 ht with rfl
        refine ⟨?_, ?_⟩
        · rw [(tradeStep_trade st tid mid).2.2]
          exact List.mem_cons_self _ _
        · rw [(tradeStep_trade st tid mid).2.2, (tradeStep_trade st tid mid).1]

theorem matchLevel_makers_prefix (tid : Nat) (lvl : List Nat) (st : Store) :
    ((matchLevel st tid lvl).2.2.map (Trade.makerOf (Store.get st tid).side)) <+: lvl ∧
    ((matchLevel st tid lvl).2.1 = [] →
      (matchLevel st tid lvl).2.2.map (Trade.makerOf (Store.get st tid).side) = lvl) := by
  induction lvl generalizing st with
  | nil => exact ⟨List.nil_prefix, fun _ => rfl⟩
  | cons mid rest ih =>
    rw [matchLevel_cons]
    by_cases h1 : (Store.get st tid).isFilled = true
    · rw [if_pos h1]
      exact ⟨List.nil_prefix, fun h => absurd h (List.cons_ne_nil _ _)⟩
    · rw [if_neg h1]
      by_cases h2 : (Store.get (tradeStep st tid mid).1 mid).isFilled = true
      · rw [if_pos h2]
        have hside := (tradeStep_get_proj st tid mid tid).2.1
        obtain ⟨hpre, hexact⟩ := ih (tradeStep st tid mid).1
        rw [hside] at hpre hexact
        constructor
        · obtain ⟨r, hr⟩ := hpre
          refine ⟨r, ?_⟩
          dsimp only [List.map_cons]
          rw [(tradeStep_trade st tid mid).2.2, List.cons_append, hr]
        · intro hnil
          dsimp only [List.map_cons]
          rw [(tradeStep_trade st tid mid).2.2, hexact hnil]
      · rw [if_neg h2]
        constructor
        · refine ⟨rest, ?_⟩
          dsimp only [List.map_cons, List.map_nil]
          rw [(tradeStep_trade st tid mid).2.2]
          rfl
        · exact fun h => absurd h (List.cons_ne_nil _ _)

theorem matchLevel_consumed_filled (tid : Nat) (lvl : List Nat) (st : Store)
    (hnd : lvl.Nodup) (htid : tid ∉ lvl) :
    ∀ m ∈ lvl, m ∉ (matchLevel st tid lvl).2.1 →
      (Store.get (matchLevel st tid lvl).1 m).isFilled = true := by
  induction lvl generalizing st with
  | nil => intro m hm; exact absurd hm (List.not_mem_nil m)
  | cons mid rest ih =>
    have htm : tid ≠ mid := fun hc => htid (hc ▸ List.mem_cons_self _ _)
    have htr : tid ∉ rest := fun hc => htid (List.mem_cons_of_mem _ hc)
    have hmidr : mid ∉ rest := (List.nodup_cons.1 hnd).1
    rw [matchLevel_cons]
    by_cases h1 : (Store.get st tid).isFilled = true
    · rw [if_pos h1]
      intro m hm hq
      exact absurd hm hq
    · rw [if_neg h1]
      by_cases h2 : (Store.get (tradeStep st tid mid).1 mid).isFilled = true
      · rw [if_pos h2]
        intro m hm hq
        rcases List.mem_cons.1 hm with heq | hm'
        · rw [heq, matchLevel_frame tid rest (tradeStep st tid mid).1 mid (Ne.symm htm) hmidr]
          exact h2
        · exact ih (tradeStep st tid mid).1 (List.nodup_cons.1 hnd).2 htr m hm' hq
      · rw [if_neg h2]
        intro m hm hq
        exact absurd hm hq

theorem matchLevel_survivors_unfilled (tid : Nat) (lvl : List Nat) (st : Store)
    (hu : ∀ m ∈ lvl, (Store.get st m).isFilled = false)
    (hnd : lvl.Nodup) (htid : tid ∉ lvl) :
    ∀ m ∈ (matchLevel st tid lvl).2.1,
      (Store.get (matchLevel st tid lvl).1 m).isFilled = false := by
  induction lvl generalizing st with
  | nil => intro m hm; exact absurd hm (List.not_mem_nil m)
  | cons mid rest ih =>
    have htm : tid ≠ mid := fun hc => htid (hc ▸ List.mem_cons_self _ _)
    have htr : tid ∉ rest := fun hc => htid (List.mem_cons_of_mem _ hc)
    have hmidr : mid ∉ rest := (List.nodup_cons.1 hnd).1
    have hustep : ∀ m ∈ rest, Store.get (tradeStep st tid mid).1 m = Store.get st m := by
      intro m hm
      exact tradeStep_frame st tid mid m
        (fun hc => htr (hc ▸ hm)) (fun hc => hmidr (hc ▸ hm))
    rw [matchLevel_cons]
    by_cases h1 : (Store.get st tid).isFilled = true
    · rw [if_pos h1]
      exact hu
    · rw [if_neg h1]
      by_cases h2 : (Store.get (tradeStep st tid mid).1 mid).isFilled = true
      · rw [if_pos h2]
        refine ih (tradeStep st tid mid).1 ?_ (List.nodup_cons.1 hnd).2 htr
        intro m hm
        rw [hustep m hm]
        exact hu m (List.mem_cons_of_mem _ hm)
      · rw [if_neg h2]
        intro m hm
        rcases List.mem_cons.1 hm with heq | hm'
        · rw [heq]
          rcases Bool.eq_false_or_eq_true ((Store.get (tradeStep st tid mid).1 mid).isFilled)
            with h | h
          · exact absurd h h2
          · exact h
        · rw [hustep m hm']
          exact hu m (List.mem_cons_of_mem _ hm')

theorem matchLevel_trades_pos (tid : Nat) (lvl : List Nat) (st : Store)
    (hu : ∀ m ∈ lvl, (Store.get st m).isFilled = false)
    (hnd : lvl.Nodup) (htid : tid ∉ lvl) :
    ∀ t ∈ (matchLevel st tid lvl).2.2, 0 < t.quantity := by
  induction lvl generalizing st with
  | nil => intro t ht; exact absurd ht (List.not_mem_nil t)
  | cons mid rest ih =>
    have htm : tid ≠ mid := fun hc => htid (hc ▸ List.mem_cons_self _ _)
    have htr : tid ∉ rest := fun hc => htid (List.mem_cons_of_mem _ hc)
    have hmidr : mid ∉ rest := (List.nodup_cons.1 hnd).1
    have hustep : ∀ m ∈ rest, Store.get (tradeStep st tid mid).1 m = Store.get st m := by
      intro m hm
      exact tradeStep_frame st tid mid m
        (fun hc => htr (hc ▸ hm)) (fun hc => hmidr (hc ▸ hm))
    rw [matchLevel_cons]
    by_cases h1 : (Store.get st tid).isFilled = true
    · rw [if_pos h1]
      intro t ht
      exact absurd ht (List.not_mem_nil t)
    · rw [if_neg h1]
      have hqpos : 0 < (tradeStep st tid mid).2.quantity := by
        rw [(tradeStep_trade st tid mid).2.1]
        refine lt_min ?_ ?_
        · exact (Order.isFilled_false_iff _).1
            (by rcases Bool.eq_false_or_eq_true ((Store.get st tid).isFilled) with h | h
                exacts [absurd h h1, h])
        · exact (Order.isFilled_false_iff _).1 (hu mid (List.mem_cons_self _ _))
      by_cases h2 : (Store.get (tradeStep st tid mid).1 mid).isFilled = true
      · rw [if_pos h2]
        intro t ht
        rcases List.mem_cons.1 ht with rfl | ht'
        · exact hqpos
        · refine ih (tradeStep st tid mid).1 ?_ (List.nodup_cons.1 hnd).2 htr t ht'
          intro m hm
          rw [hustep m hm]
          exact hu m (List.mem_cons_of_mem _ hm)
      · rw [if_neg h2]
        intro t ht
        rcases List.mem_singleton.1 ht with rfl
        exact hqpos

theorem executeTrade_fill_le (st : Store) (b s : Nat) (px q : ℚ) (hbs : b ≠ s)
    (hqb : q ≤ (Store.get st b).getRemainingQuantity)
    (hqs : q ≤ (Store.get st s).getRemainingQuantity)
    (hst : ∀ p ∈ st, p.2.filledQuantity ≤ p.2.quantity) :
    ∀ p ∈ (executeTrade st b s px q).1, p.2.filledQuantity ≤ p.2.quantity := by
  intro p hp
  rw [Order.getRemainingQuantity] at hqb hqs
  rcases Store.mem_update_cases _ s (applyFill q) p hp with hp1 | ⟨hp1, -⟩
  · rcases Store.mem_update_cases st b (applyFill q) p hp1 with hp2 | ⟨hp2, -⟩
    · exact hst p hp2
    · rw [hp2]
      dsimp only
      rw [applyFill_filledQuantity, (applyFill_preserves q _).2.2.1]
      linarith
  · rw [hp1]
    dsimp only
    rw [applyFill_filledQuantity, (applyFill_preserves q _).2.2.1,
      Store.get_update_ne st b s (applyFill q) (Ne.symm hbs)]
    linarith

theorem tradeStep_fill_le (st : Store) (tid mid : Nat) (hne : tid ≠ mid)
    (hst : ∀ p ∈ st, p.2.filledQuantity ≤ p.2.quantity) :
    ∀ p ∈ (tradeStep st tid mid).1, p.2.filledQuantity ≤ p.2.quantity := by
  unfold tradeStep
  by_cases hs : (Store.get st tid).side = OrderSide.buy
  · rw [if_pos hs]
    exact executeTrade_fill_le st tid mid _ _ hne (min_le_left _ _) (min_le_right _ _) hst
  · rw [if_neg hs]
    exact executeTrade_fill_le st mid tid _ _ (Ne.symm hne)
      (min_le_right _ _) (min_le_left _ _) hst

theorem matchLevel_fill_le (tid : Nat) (lvl : List Nat) (st : Store)
    (htid : tid ∉ lvl)
    (hst : ∀ p ∈ st, p.2.filledQuantity ≤ p.2.quantity) :
    ∀ p ∈ (matchLevel st tid lvl).1, p.2.filledQuantity ≤ p.2.quantity := by
  induction lvl generalizing st with
  | nil => exact hst
  | cons mid rest ih =>
    have htm : tid ≠ mid := fun hc => htid (hc ▸ List.mem_cons_self _ _)
    have htr : tid ∉ rest := fun hc => htid (List.mem_cons_of_mem _ hc)
    rw [matchLevel_cons]
    by_cases h1 : (Store.get st tid).isFilled = true
    · rw [if_pos h1]
      exact hst
    · rw [if_neg h1]
      by_cases h2 : (Store.get (tradeStep st tid mid).1 mid).isFilled = true
      · rw [if_pos h2]
        exact ih (tradeStep st tid mid).1 htr (tradeStep_fill_le st tid mid htm hst)
      · rw [if_neg h2]
        exact tradeStep_fill_le st tid mid htm hst

theorem Store.get_insertRec_self (s : Store) (k : Nat) (v : Order) :
    Store.get (Store.insertRec s k v) k = v := by
  induction s with
  | nil => simp [Store.insertRec, Store.get]
  | cons hd tl ih =>
    obtain ⟨k', o⟩ := hd
    rcases Nat.lt_trichotomy k k' with h | h | h
    · simp [Store.insertRec, h, Store.get]
    · simp [Store.insertRec, h, Store.get]
    · rw [Store.insertRec, if_neg (by omega), if_neg (by omega), Store.get,
        if_neg (by omega)]
      exact ih

theorem Store.get_insertRec_ne (s : Store) (k i : Nat) (v : Order) (h : i ≠ k) :
    Store.get (Store.insertRec s k v) i = Store.get s i := by
  induction s with
  | nil => simp [Store.insertRec, Store.get, h]
  | cons hd tl ih =>
    obtain ⟨k', o⟩ := hd
    rcases Nat.lt_trichotomy k k' with hlt | heq | hgt
    · rw [Store.insertRec, if_pos hlt, Store.get, if_neg h]
    · subst heq
      rw [Store.insertRec, if_neg (lt_irrefl k), if_pos rfl, Store.get, if_neg h,
        Store.get, if_neg h]
    · rw [Store.insertRec, if_neg (by omega), if_neg (by omega)]
      by_cases hik : i = k'
      · rw [Store.get, if_pos hik, Store.get, if_pos hik]
      · rw [Store.get, if_neg hik, Store.get, if_neg hik]
        exact ih

theorem Store.mem_insertRec_cases (s : Store) (k : Nat) (v : Order) :
    ∀ p ∈ Store.insertRec s k v, p ∈ s ∨ p = (k, v) := by
  induction s with
  | nil => intro p hp; simp [Store.insertRec] at hp; exact Or.inr hp
  | cons hd tl ih =>
    obtain ⟨k', o⟩ := hd
    intro p hp
    rcases Nat.lt_trichotomy k k' with hlt | heq | hgt
    · rw [Store.insertRec, if_pos hlt] at hp
      rcases List.mem_cons.1 hp with rfl | hp'
      · exact Or.inr rfl
      · exact Or.inl hp'
    · subst heq
      rw [Store.insertRec, if_neg (lt_irrefl k), if_pos rfl] at hp
      rcases List.mem_cons.1 hp with rfl | hp'
      · exact Or.inr rfl
      · exact Or.inl (List.mem_cons_of_mem _ hp')
    · rw [Store.insertRec, if_neg (by omega), if_neg (by omega)] at hp
      rcases List.mem_cons.1 hp with rfl | hp'
      · exact Or.inl (List.mem_cons_self _ _)
      · rcases ih p hp' with h | h
        · exact Or.inl (List.mem_cons_of_mem _ h)
        · exact Or.inr h

theorem ladderInsert_ids_mem (better : ℚ → ℚ → Bool) (p : ℚ) (oid : Nat)
    (lad : Ladder) :
    ∀ x, x ∈ ladderIds (ladderInsert better p oid lad) ↔ x ∈ ladderIds lad ∨ x = oid := by
  induction lad with
  | nil =>
    intro x
    simp [ladderInsert, ladderIds]
  | cons hd rest ih =>
    obtain ⟨q, lvl⟩ := hd
    intro x
    by_cases hpq : p = q
    · rw [ladderInsert, if_pos hpq, ladderIds_cons, ladderIds_cons]
      simp only [List.mem_append, List.mem_singleton]
      tauto
    · rw [ladderInsert, if_neg hpq]
      by_cases hb : better p q = true
      · rw [if_pos hb, ladderIds_cons, ladderIds_cons]
        simp only [List.mem_append, List.mem_singleton]
        tauto
      · rw [if_neg hb, ladderIds_cons, ladderIds_cons]
        have hx := ih x
        simp only [List.mem_append] at hx ⊢
        tauto

theorem ladderInsert_ids_nodup (better : ℚ → ℚ → Bool) (p : ℚ) (oid : Nat)
    (lad : Ladder) (hnd : (ladderIds lad).Nodup) (hoid : oid ∉ ladderIds lad) :
    (ladderIds (ladderInsert better p oid lad)).Nodup := by
  induction lad with
  | nil => simp [ladderInsert, ladderIds]
  | cons hd rest ih =>
    obtain ⟨q, lvl⟩ := hd
    rw [ladderIds_cons] at hnd hoid
    have hnl : lvl.Nodup := (List.nodup_append.1 hnd).1
    have hnr : (ladderIds rest).Nodup := (List.nodup_append.1 hnd).2.1
    have hdisj : lvl.Disjoint (ladderIds rest) := (List.nodup_append.1 hnd).2.2
    have hol : oid ∉ lvl := fun hc => hoid (List.mem_append.2 (Or.inl hc))
    have hor : oid ∉ ladderIds rest := fun hc => hoid (List.mem_append.2 (Or.inr hc))
    by_cases hpq : p = q
    · rw [ladderInsert, if_pos hpq, ladderIds_cons]
      rw [List.nodup_append]
      refine ⟨?_, hnr, ?_⟩
      · rw [List.nodup_append]
        exact ⟨hnl, List.nodup_singleton _, by
          intro a ha hb
          rcases List.mem_singleton.1 hb with rfl
          exact hol ha⟩
      · intro a ha hb
        rcases List.mem_append.1 ha with h | h
        · exact hdisj h hb
        · rcases List.mem_singleton.1 h with rfl
          exact hor hb
    · rw [ladderInsert, if_neg hpq]
      by_cases hb : better p q = true
      · rw [if_pos hb, ladderIds_cons, ladderIds_cons]
        rw [List.nodup_append]
        refine ⟨List.nodup_singleton _, hnd, ?_⟩
        intro a ha hbm
        rcases List.mem_singleton.1 ha with rfl
        exact hoid hbm
      · rw [if_neg hb, ladderIds_cons]
        rw [List.nodup_append]
        refine ⟨hnl, ih hnr hor, ?_⟩
        intro a ha hbm
        rcases (ladderInsert_ids_mem better p oid rest a).1 hbm with h | h
        · exact hdisj ha h
        · exact hol (h ▸ ha)

theorem ladderCancel_ids_sublist (p : ℚ) (oid : Nat) (lad : Ladder) :
    List.Sublist (ladderIds (ladderCancel p oid lad)) (ladderIds lad) := by
  induction lad with
  | nil => exact List.Sublist.refl _
  | cons hd rest ih =>
    obtain ⟨q, lvl⟩ := hd
    by_cases hq : q = p
    · rw [ladderCancel, if_pos hq]
      by_cases he : (lvl.filter (fun x => !(x == oid))).isEmpty = true
      · rw [if_pos he, ladderIds_cons]
        exact List.sublist_append_right lvl _
      · rw [if_neg he, ladderIds_cons, ladderIds_cons]
        exact (List.filter_sublist lvl).append (List.Sublist.refl _)
    · rw [ladderCancel, if_neg hq, ladderIds_cons, ladderIds_cons]
      exact (List.Sublist.refl lvl).append ih

theorem booksLookup_mem (books : List (String × Book)) (k : String) (b : Book)
    (h : booksLookup books k = some b) : (k, b) ∈ books := by
  induction books with
  | nil => simp [booksLookup] at h
  | cons hd tl ih =>
    obtain ⟨s, b'⟩ := hd
    by_cases hk : k = s
    · rw [booksLookup, if_pos hk] at h
      cases Option.some.inj h
      rw [hk]
      exact List.mem_cons_self _ _
    · rw [booksLookup, if_neg hk] at h
      exact List.mem_cons_of_mem _ (ih h)

theorem booksInsert_mem_cases (books : List (String × Book)) (k : String) (b : Book) :
    ∀ p ∈ booksInsert books k b, p ∈ books ∨ p = (k, b) := by
  induction books with
  | nil => intro p hp; simp [booksInsert] at hp; exact Or.inr hp
  | cons hd tl ih =>
    obtain ⟨s, b'⟩ := hd
    intro p hp
    by_cases hk : k = s
    · rw [booksInsert, if_pos hk] at hp
      rcases List.mem_cons.1 hp with rfl | hp'
      · exact Or.inr rfl
      · exact Or.inl (List.mem_cons_of_mem _ hp')
    · rw [booksInsert, if_neg hk] at hp
      rcases List.mem_cons.1 hp with rfl | hp'
      · exact Or.inl (List.mem_cons_self _ _)
      · rcases ih p hp' with h | h
        · exact Or.inl (List.mem_cons_of_mem _ h)
        · exact Or.inr h

theorem matchLadder_survivors_unfilled (tid : Nat) (lad : Ladder) (st : Store)
    (hu : ∀ m ∈ ladderIds lad, (Store.get st m).isFilled = false)
    (hnd : (ladderIds lad).Nodup) (htid : tid ∉ ladderIds lad) :
    ∀ m ∈ ladderIds (matchLadder st tid lad).2.1,
      (Store.get (matchLadder st tid lad).1 m).isFilled = false := by
  induction lad generalizing st with
  | nil => intro m hm; exact absurd hm (List.not_mem_nil m)
  | cons hd rest ih =>
    obtain ⟨price, lvl⟩ := hd
    rw [ladderIds_cons] at hu hnd htid
    have hul : ∀ m ∈ lvl, (Store.get st m).isFilled = false :=
      fun m hm => hu m (List.mem_append.2 (Or.inl hm))
    have hur : ∀ m ∈ ladderIds rest, (Store.get st m).isFilled = false :=
      fun m hm => hu m (List.mem_append.2 (Or.inr hm))
    have hnl : lvl.Nodup := (List.nodup_append.1 hnd).1
    have hnr : (ladderIds rest).Nodup := (List.nodup_append.1 hnd).2.1
    have hdisj : lvl.Disjoint (ladderIds rest) := (List.nodup_append.1 hnd).2.2
    have htl : tid ∉ lvl := fun hc => htid (List.mem_append.2 (Or.inl hc))
    have htr : tid ∉ ladderIds rest := fun hc => htid (List.mem_append.2 (Or.inr hc))
    have hframe : ∀ m ∈ ladderIds rest,
        Store.get (matchLevel st tid lvl).1 m = Store.get st m :=
      fun m hm => matchLevel_frame tid lvl st m
        (fun hc => htr (hc ▸ hm)) (fun hc => hdisj hc hm)
    rw [matchLadder_cons]
    by_cases h1 : (Store.get st tid).isFilled = true
    · rw [if_pos h1]
      intro m hm
      exact hu m hm
    · rw [if_neg h1]
      by_cases h2 : (Store.get st tid).type = OrderType.limit ∧
          priceAcceptable (Store.get st tid) price = false
      · rw [if_pos h2]
        intro m hm
        exact hu m hm
      · rw [if_neg h2]
        by_cases h3 : (matchLevel st tid lvl).2.1.isEmpty = true
        · rw [if_pos h3]
          refine ih (matchLevel st tid lvl).1 ?_ hnr htr
          intro m hm
          rw [hframe m hm]
          exact hur m hm
        · rw [if_neg h3]
          intro m hm
          rcases List.mem_append.1 hm with hm' | hm'
          · exact matchLevel_survivors_unfilled tid lvl st hul hnl htl m hm'
          · rw [hframe m hm']
            exact hur m hm'

theorem matchLadder_trades_pos (tid : Nat) (lad : Ladder) (st : Store)
    (hu : ∀ m ∈ ladderIds lad, (Store.get st m).isFilled = false)
    (hnd : (ladderIds lad).Nodup) (htid : tid ∉ ladderIds lad) :
    ∀ t ∈ (matchLadder st tid lad).2.2, 0 < t.quantity := by
  induction lad generalizing st with
  | nil => intro t ht; exact absurd ht (List.not_mem_nil t)
  | cons hd rest ih =>
    obtain ⟨price, lvl⟩ := hd
    rw [ladderIds_cons] at hu hnd htid
    have hul : ∀ m ∈ lvl, (Store.get st m).isFilled = false :=
      fun m hm => hu m (List.mem_append.2 (Or.inl hm))
    have hur : ∀ m ∈ ladderIds rest, (Store.get st m).isFilled = false :=
      fun m hm => hu m (List.mem_append.2 (Or.inr hm))
    have hnl : lvl.Nodup := (List.nodup_append.1 hnd).1
    have hnr : (ladderIds rest).Nodup := (List.nodup_append.1 hnd).2.1
    have hdisj : lvl.Disjoint (ladderIds rest) := (List.nodup_append.1 hnd).2.2
    have htl : tid ∉ lvl := fun hc => htid (List.mem_append.2 (Or.inl hc))
    have htr : tid ∉ ladderIds rest := fun hc => htid (List.mem_append.2 (Or.inr hc))
    have hframe : ∀ m ∈ ladderIds rest,
        Store.get (matchLevel st tid lvl).1 m = Store.get st m :=
      fun m hm => matchLevel_frame tid lvl st m
        (fun hc => htr (hc ▸ hm)) (fun hc => hdisj hc hm)
    rw [matchLadder_cons]
    by_cases h1 : (Store.get st tid).isFilled = true
    · rw [if_pos h1]
      intro t ht
      exact absurd ht (List.not_mem_nil t)
    · rw [if_neg h1]
      by_cases h2 : (Store.get st tid).type = OrderType.limit ∧
          priceAcceptable (Store.get st tid) price = false
      · rw [if_pos h2]
        intro t ht
        exact absurd ht (List.not_mem_nil t)
      · rw [if_neg h2]
        by_cases h3 : (matchLevel st tid lvl).2.1.isEmpty = true
        · rw [if_pos h3]
          intro t ht
          rcases List.mem_append.1 ht with ht' | ht'
          · exact matchLevel_trades_pos tid lvl st hul hnl htl t ht'
          · refine ih (matchLevel st tid lvl).1 ?_ hnr htr t ht'
            intro m hm
            rw [hframe m hm]
            exact hur m hm
        · rw [if_neg h3]
          exact matchLevel_trades_pos tid lvl st hul hnl htl

theorem matchLadder_fill_le (tid : Nat) (lad : Ladder) (st : Store)
    (htid : tid ∉ ladderIds lad)
    (hst : ∀ p ∈ st, p.2.filledQuantity ≤ p.2.quantity) :
    ∀ p ∈ (matchLadder st tid lad).1, p.2.filledQuantity ≤ p.2.quantity := by
  induction lad generalizing st with
  | nil => exact hst
  | cons hd rest ih =>
    obtain ⟨price, lvl⟩ := hd
    rw [ladderIds_cons] at htid
    have htl : tid ∉ lvl := fun hc => htid (List.mem_append.2 (Or.inl hc))
    have htr : tid ∉ ladderIds rest := fun hc => htid (List.mem_append.2 (Or.inr hc))
    rw [matchLadder_cons]
    by_cases h1 : (Store.get st tid).isFilled = true
    · rw [if_pos h1]
      exact hst
    · rw [if_neg h1]
      by_cases h2 : (Store.get st tid).type = OrderType.limit ∧
          priceAcceptable (Store.get st tid) price = false
      · rw [if_pos h2]
        exact hst
      · rw [if_neg h2]
        by_cases h3 : (matchLevel st tid lvl).2.1.isEmpty = true
        · rw [if_pos h3]
          exact ih (matchLevel st tid lvl).1 htr (matchLevel_fill_le tid lvl st htl hst)
        · rw [if_neg h3]
          exact matchLevel_fill_le tid lvl st htl hst

theorem oppBetter_irrefl (sd : OrderSide) (a : ℚ) : oppBetter sd a a = false := by
  cases sd <;> simp [oppBetter, askBetter, bidBetter]

theorem oppBetter_asymm (sd : OrderSide) (a b : ℚ) (h : oppBetter sd a b = true) :
    oppBetter sd b a = false := by
  cases sd <;> simp [oppBetter, askBetter, bidBetter] at h ⊢ <;> linarith

theorem priceAcceptable_congr (o1 o2 : Order) (p : ℚ) (hs : o1.side = o2.side)
    (hp : o1.price = o2.price) : priceAcceptable o1 p = priceAcceptable o2 p := by
  unfold priceAcceptable
  rw [hs, hp]

theorem priceAcceptable_buy (o : Order) (p : ℚ) (h : o.side = .buy) :
    priceAcceptable o p = decide (p ≤ o.price) := by
  unfold priceAcceptable
  rw [h]

theorem priceAcceptable_sell (o : Order) (p : ℚ) (h : o.side = .sell) :
    priceAcceptable o p = decide (o.price ≤ p) := by
  unfold priceAcceptable
  rw [h]

theorem matchLadder_trades_acceptable (tid : Nat) (lad : Ladder) (st : Store)
    (hp : ∀ pl ∈ lad, ∀ m ∈ pl.2, (Store.get st m).price = pl.1) :
    ∀ t ∈ (matchLadder st tid lad).2.2,
      t.price = (Store.get st (Trade.makerOf (Store.get st tid).side t)).price ∧
      ((Store.get st tid).type = OrderType.limit →
        priceAcceptable (Store.get st tid) t.price = true) := by
  induction lad generalizing st with
  | nil => intro t ht; exact absurd ht (List.not_mem_nil t)
  | cons hd rest ih =>
    obtain ⟨price, lvl⟩ := hd
    rw [matchLadder_cons]
    by_cases h1 : (Store.get st tid).isFilled = true
    · rw [if_pos h1]
      intro t ht
      exact absurd ht (List.not_mem_nil t)
    · rw [if_neg h1]
      by_cases h2 : (Store.get st tid).type = OrderType.limit ∧
          priceAcceptable (Store.get st tid) price = false
      · rw [if_pos h2]
        intro t ht
        exact absurd ht (List.not_mem_nil t)
      · rw [if_neg h2]
        have hacc : (Store.get st tid).type = OrderType.limit →
            priceAcceptable (Store.get st tid) price = true := by
          intro hty
          cases h : priceAcceptable (Store.get st tid) price with
          | true => rfl
          | false => exact absurd ⟨hty, h⟩ h2
        have hhead : ∀ t ∈ (matchLevel st tid lvl).2.2,
            t.price = (Store.get st (Trade.makerOf (Store.get st tid).side t)).price ∧
            t.price = price := by
          intro t ht
          obtain ⟨hm, hpr⟩ := matchLevel_trades_maker tid lvl st t ht
          exact ⟨hpr, by rw [hpr]; exact hp (price, lvl) (List.mem_cons_self _ _) _ hm⟩
        by_cases h3 : (matchLevel st tid lvl).2.1.isEmpty = true
        · rw [if_pos h3]
          intro t ht
          rcases List.mem_append.1 ht with ht0 | ht1
          · obtain ⟨ha, hb⟩ := hhead t ht0
            exact ⟨ha, fun hty => by rw [hb]; exact hacc hty⟩
          · have hproj := matchLevel_get_proj tid lvl st
            have hp1 : ∀ pl ∈ rest, ∀ m ∈ pl.2,
                (Store.get (matchLevel st tid lvl).1 m).price = pl.1 := by
              intro pl hpl m hm
              rw [(hproj m).1]
              exact hp pl (List.mem_cons_of_mem _ hpl) m hm
            obtain ⟨ha, hb⟩ := ih (matchLevel st tid lvl).1 hp1 t ht1
            rw [(hproj tid).2.1] at ha
            refine ⟨?_, ?_⟩
            · rw [ha, (hproj (Trade.makerOf (Store.get st tid).side t)).1]
            · intro hty
              have hty1 : (Store.get (matchLevel st tid lvl).1 tid).type
                  = OrderType.limit := by
                rw [(hproj tid).2.2.2]
                exact hty
              rw [← priceAcceptable_congr (Store.get (matchLevel st tid lvl).1 tid)
                (Store.get st tid) t.price (hproj tid).2.1 (hproj tid).1]
              exact hb hty1
        · rw [if_neg h3]
          intro t ht
          obtain ⟨ha, hb⟩ := hhead t ht
          exact ⟨ha, fun hty => by rw [hb]; exact hacc hty⟩

/-- C7: every trade emitted while matching executes at the resting (maker)
order's limit price; when the taker is a limit order, every trade price is
at least as favourable to the taker as the taker's own limit (≤ it for a
buy taker, ≥ it for a sell taker). -/
theorem trade_price_is_resting_limit (st : Store) (tid : Nat) (lad : Ladder)
    (hp : ∀ pl ∈ lad, ∀ m ∈ pl.2, (Store.get st m).price = pl.1) :
    ∀ t ∈ (matchLadder st tid lad).2.2,
      t.price = (Store.get st (Trade.makerOf (Store.get st tid).side t)).price ∧
      ((Store.get st tid).type = OrderType.limit →
        ((Store.get st tid).side = .buy → t.price ≤ (Store.get st tid).price) ∧
        ((Store.get st tid).side = .sell → (Store.get st tid).price ≤ t.price)) := by
  intro t ht
  obtain ⟨ha, hb⟩ := matchLadder_trades_acceptable tid lad st hp t ht
  refine ⟨ha, fun hty => ⟨fun hside => ?_, fun hside => ?_⟩⟩
  · have hx := hb hty
    rw [priceAcceptable_buy _ _ hside] at hx
    exact of_decide_eq_true hx
  · have hx := hb hty
    rw [priceAcceptable_sell _ _ hside] at hx
    exact of_decide_eq_true hx

theorem trade_price_is_resting_limit_witness :
    ((⟨2, 1, 5, 1⟩ : Trade).price =
      (Store.get demoStore7 (Trade.makerOf (Store.get demoStore7 2).side ⟨2, 1, 5, 1⟩)).price) ∧
    ((Store.get demoStore7 2).type = OrderType.limit →
      ((Store.get demoStore7 2).side = .buy →
        (⟨2, 1, 5, 1⟩ : Trade).price ≤ (Store.get demoStore7 2).price) ∧
      ((Store.get demoStore7 2).side = .sell →
        (Store.get demoStore7 2).price ≤ (⟨2, 1, 5, 1⟩ : Trade).price)) := by
  refine trade_price_is_resting_limit demoStore7 2 demoLadder7 ?_ ⟨2, 1, 5, 1⟩ ?_
  · intro pl hpl m hm
    simp only [demoLadder7, List.mem_singleton] at hpl
    subst hpl
    simp only [List.mem_singleton] at hm
    subst hm
    rfl
  · show (⟨2, 1, 5, 1⟩ : Trade) ∈ (matchLadder demoStore7 2 demoLadder7).2.2
    norm_num +decide [demoStore7, demoLadder7, matchLadder, matchLevel, executeTrade,
      applyFill, Store.update, Store.get, Order.isFilled, Order.getRemainingQuantity,
      priceAcceptable]

theorem matchLadder_priority_aux (tid : Nat) (lad : Ladder) (st : Store)
    (hkeys : (lad.map Prod.fst).Pairwise
      (fun a b => oppBetter (Store.get st tid).side a b = true))
    (hp : ∀ pl ∈ lad, ∀ m ∈ pl.2, (Store.get st m).price = pl.1)
    (hnd : (ladderIds lad).Nodup) (htid : tid ∉ ladderIds lad) :
    ((matchLadder st tid lad).2.2.map (Trade.makerOf (Store.get st tid).side))
      <+: ladderIds lad ∧
    (∀ t ∈ (matchLadder st tid lad).2.2, t.price ∈ lad.map Prod.fst) ∧
    ((matchLadder st tid lad).2.2.map Trade.price).Pairwise
      (fun a b => oppBetter (Store.get st tid).side b a = false) ∧
    (∀ pl ∈ lad, (∃ t ∈ (matchLadder st tid lad).2.2,
        oppBetter (Store.get st tid).side pl.1 t.price = true) →
      ∀ m ∈ pl.2, (Store.get (matchLadder st tid lad).1 m).isFilled = true) := by
  induction lad generalizing st with
  | nil =>
    refine ⟨List.nil_prefix, ?_, List.Pairwise.nil, ?_⟩
    · intro t ht
      exact absurd ht (List.not_mem_nil t)
    · intro pl hpl
      exact absurd hpl (List.not_mem_nil pl)
  | cons hd rest ih =>
    obtain ⟨price, lvl⟩ := hd
    rw [ladderIds_cons] at hnd htid
    have hnl : lvl.Nodup := (List.nodup_append.1 hnd).1
    have hnr : (ladderIds rest).Nodup := (List.nodup_append.1 hnd).2.1
    have hdisj : lvl.Disjoint (ladderIds rest) := (List.nodup_append.1 hnd).2.2
    have htl : tid ∉ lvl := fun hc => htid (List.mem_append.2 (Or.inl hc))
    have htr : tid ∉ ladderIds rest := fun hc => htid (List.mem_append.2 (Or.inr hc))
    rw [List.map_cons] at hkeys
    have hkhead : ∀ k ∈ rest.map Prod.fst,
        oppBetter (Store.get st tid).side price k = true := (List.pairwise_cons.1 hkeys).1
    have hktail : (rest.map Prod.fst).Pairwise
        (fun a b => oppBetter (Store.get st tid).side a b = true) :=
      (List.pairwise_cons.1 hkeys).2
    rw [matchLadder_cons]
    by_cases h1 : (Store.get st tid).isFilled = true
    · rw [if_pos h1]
      refine ⟨List.nil_prefix, ?_, List.Pairwise.nil, ?_⟩
      · intro t ht
        exact absurd ht (List.not_mem_nil t)
      · intro pl hpl hex
        obtain ⟨t, ht, -⟩ := hex
        exact absurd ht (List.not_mem_nil t)
    · rw [if_neg h1]
      by_cases h2 : (Store.get st tid).type = OrderType.limit ∧
          priceAcceptable (Store.get st tid) price = false
      · rw [if_pos h2]
        refine ⟨List.nil_prefix, ?_, List.Pairwise.nil, ?_⟩
        · intro t ht
          exact absurd ht (List.not_mem_nil t)
        · intro pl hpl hex
          obtain ⟨t, ht, -⟩ := hex
          exact absurd ht (List.not_mem_nil t)
      · rw [if_neg h2]
        have hts0price : ∀ t ∈ (matchLevel st tid lvl).2.2, t.price = price := by
          intro t ht
          obtain ⟨hm, hpr⟩ := matchLevel_trades_maker tid lvl st t ht
          rw [hpr]
          exact hp (price, lvl) (List.mem_cons_self _ _) _ hm
        have hmkpre := matchLevel_makers_prefix tid lvl st
        have hpw0 : ∀ (l2 : List Trade), (∀ t ∈ l2, t.price = price) →
            ((l2.map Trade.price).Pairwise
              (fun a b => oppBetter (Store.get st tid).side b a = false)) := by
          intro l2 hl2
          refine List.pairwise_of_forall_mem_list ?_
          intro a ha b hb
          obtain ⟨ta, hta, rfl⟩ := List.mem_map.1 ha
          obtain ⟨tb, htb, rfl⟩ := List.mem_map.1 hb
          rw [hl2 ta hta, hl2 tb htb]
          exact oppBetter_irrefl _ _
        by_cases h3 : (matchLevel st tid lvl).2.1.isEmpty = true
        · rw [if_pos h3]
          have hside : (Store.get (matchLevel st tid lvl).1 tid).side
              = (Store.get st tid).side := (matchLevel_get_proj tid lvl st tid).2.1
          have hp1 : ∀ pl ∈ rest, ∀ m ∈ pl.2,
              (Store.get (matchLevel st tid lvl).1 m).price = pl.1 := by
            intro pl hpl m hm
            rw [(matchLevel_get_proj tid lvl st m).1]
            exact hp pl (List.mem_cons_of_mem _ hpl) m hm
          have hkeys1 : (rest.map Prod.fst).Pairwise
              (fun a b => oppBetter (Store.get (matchLevel st tid lvl).1 tid).side a b
                = true) := by
            rw [hside]
            exact hktail
          obtain ⟨ih1, ih2, ih3, ih4⟩ := ih (matchLevel st tid lvl).1 hkeys1 hp1 hnr htr
          rw [hside] at ih1 ih3 ih4
          have hexact : (matchLevel st tid lvl).2.2.map
              (Trade.makerOf (Store.get st tid).side) = lvl :=
            hmkpre.2 (List.isEmpty_iff.1 h3)
          refine ⟨?_, ?_, ?_, ?_⟩
          · rw [List.map_append, hexact]
            obtain ⟨r, hr⟩ := ih1
            exact ⟨r, by rw [List.append_assoc, hr, ladderIds_cons]⟩
          · intro t ht
            rw [List.map_cons]
            rcases List.mem_append.1 ht with ht0 | ht1
            · rw [hts0price t ht0]
              exact List.mem_cons_self _ _
            · exact List.mem_cons_of_mem _ (ih2 t ht1)
          · rw [List.map_append, List.pairwise_append]
            refine ⟨hpw0 _ hts0price, ih3, ?_⟩
            intro a ha b hb
            obtain ⟨ta, hta, rfl⟩ := List.mem_map.1 ha
            obtain ⟨tb, htb, rfl⟩ := List.mem_map.1 hb
            rw [hts0price ta hta]
            exact oppBetter_asymm _ _ _ (hkhead tb.price (ih2 tb htb))
          · intro pl hpl hex
            rcases List.mem_cons.1 hpl with heq | hpl'
            · subst heq
              intro m hm
              have hfill : (Store.get (matchLevel st tid lvl).1 m).isFilled = true :=
                matchLevel_consumed_filled tid lvl st hnl htl m hm
                  (by rw [List.isEmpty_iff.1 h3]; exact List.not_mem_nil m)
              rw [matchLadder_frame tid rest (matchLevel st tid lvl).1 m
                (fun hc => htl (hc ▸ hm)) (fun hc => hdisj hm hc)]
              exact hfill
            · obtain ⟨t, ht, hworse⟩ := hex
              rcases List.mem_append.1 ht with ht0 | ht1
              · rw [hts0price t ht0] at hworse
                rw [oppBetter_asymm _ _ _
                  (hkhead pl.1 (List.mem_map.2 ⟨pl, hpl', rfl⟩))] at hworse
                exact absurd hworse (by simp)
              · exact ih4 pl hpl' ⟨t, ht1, hworse⟩
        · rw [if_neg h3]
          refine ⟨?_, ?_, hpw0 _ hts0price, ?_⟩
          · exact (hmkpre.1).trans ⟨ladderIds rest, rfl⟩
          · intro t ht
            rw [List.map_cons, hts0price t ht]
            exact List.mem_cons_self _ _
          · intro pl hpl hex
            obtain ⟨t, ht, hworse⟩ := hex
            rcases List.mem_cons.1 hpl with heq | hpl'
            · subst heq
              rw [hts0price t ht, oppBetter_irrefl] at hworse
              exact absurd hworse (by simp)
            · rw [hts0price t ht] at hworse
              rw [oppBetter_asymm _ _ _
                (hkhead pl.1 (List.mem_map.2 ⟨pl, hpl', rfl⟩))] at hworse
              exact absurd hworse (by simp)

/-- C6: the trades of one matching sweep obey price-time priority.  Over a
well-formed opposite ladder (keys sorted best-first, level members priced at
their key, no duplicate resting ids, taker not resting), the sequence of
resting orders matched is a prefix of the ladder's arrival-ordered id
sequence (earliest order of each level first, levels in best-first order),
trade prices never get better later in the list, and a level is matched at
all only after every strictly better level has been completely filled. -/
theorem trades_follow_price_time_priority (st : Store) (tid : Nat) (lad : Ladder)
    (st' : Store) (lad' : Ladder) (ts : List Trade)
    (hrun : matchLadder st tid lad = (st', lad', ts))
    (hkeys : (lad.map Prod.fst).Pairwise
      (fun a b => oppBetter (Store.get st tid).side a b = true))
    (hp : ∀ pl ∈ lad, ∀ m ∈ pl.2, (Store.get st m).price = pl.1)
    (hnd : (ladderIds lad).Nodup) (htid : tid ∉ ladderIds lad) :
    (ts.map (Trade.makerOf (Store.get st tid).side)) <+: ladderIds lad ∧
    (ts.map Trade.price).Pairwise
      (fun a b => oppBetter (Store.get st tid).side b a = false) ∧
    (∀ pl ∈ lad, (∃ t ∈ ts, oppBetter (Store.get st tid).side pl.1 t.price = true) →
      ∀ m ∈ pl.2, (Store.get st' m).isFilled = true) := by
  obtain ⟨h1, -, h3, h4⟩ := matchLadder_priority_aux tid lad st hkeys hp hnd htid
  rw [hrun] at h1 h3 h4
  exact ⟨h1, h3, h4⟩

theorem trades_follow_price_time_priority_witness :
    (((matchLadder demoStore7 2 demoLadder7).2.2).map
      (Trade.makerOf (Store.get demoStore7 2).side)) <+: ladderIds demoLadder7 :=
  (trades_follow_price_time_priority demoStore7 2 demoLadder7
    (matchLadder demoStore7 2 demoLadder7).1
    (matchLadder demoStore7 2 demoLadder7).2.1
    (matchLadder demoStore7 2 demoLadder7).2.2 rfl
    (by decide)
    (by
      intro pl hpl m hm
      simp only [demoLadder7, List.mem_singleton] at hpl
      subst hpl
      simp only [List.mem_singleton] at hm
      subst hm
      rfl)
    (by decide) (by decide)).1

theorem Store.keys_mem_insertRec (s : Store) (k : Nat) (v : Order) :
    ∀ i ∈ Store.keys (Store.insertRec s k v), i = k ∨ i ∈ Store.keys s := by
  intro i hi
  obtain ⟨p, hp, hpi⟩ := List.mem_map.1 hi
  rcases Store.mem_insertRec_cases s k v p hp with h | h
  · exact Or.inr (List.mem_map.2 ⟨p, h, hpi⟩)
  · left
    rw [← hpi, h]

/-- An accepted `addOrder` of a fresh order preserves book well-formedness
at the advanced counter. -/
theorem addOrder_WF (cnt : Nat) (b : Book) (o : Order) (b' : Book) (ts : List Trade)
    (hwf : BookWF cnt b) (hid : o.id = cnt + 1) (hfq : o.filledQuantity = 0)
    (hq : 0 ≤ o.quantity) (hrun : b.addOrder o = .ok (b', ts)) :
    BookWF (cnt + 1) b' := by
  obtain ⟨hwfS, hwfL, hwfN⟩ := hwf
  have hbidsN : (ladderIds b.bids).Nodup := (List.nodup_append.1 hwfN).1
  have hasksN : (ladderIds b.asks).Nodup := (List.nodup_append.1 hwfN).2.1
  have hdisj : (ladderIds b.bids).Disjoint (ladderIds b.asks) :=
    (List.nodup_append.1 hwfN).2.2
  have hbidsP : ∀ i ∈ ladderIds b.bids,
      i ≤ cnt ∧ (Store.get b.store i).isFilled = false :=
    fun i hi => hwfL i (List.mem_append.2 (Or.inl hi))
  have hasksP : ∀ i ∈ ladderIds b.asks,
      i ≤ cnt ∧ (Store.get b.store i).isFilled = false :=
    fun i hi => hwfL i (List.mem_append.2 (Or.inr hi))
  have hoid_bids : o.id ∉ ladderIds b.bids := fun hc => by
    have := (hbidsP _ hc).1
    omega
  have hoid_asks : o.id ∉ ladderIds b.asks := fun hc => by
    have := (hasksP _ hc).1
    omega
  set st0 : Store := Store.insertRec b.store o.id o with hst0
  have hst0fill : ∀ p ∈ st0, p.2.filledQuantity ≤ p.2.quantity := by
    intro p hp
    rcases Store.mem_insertRec_cases b.store o.id o p hp with h | h
    · exact (hwfS p h).2
    · rw [h]
      dsimp only
      rw [hfq]
      exact hq
  have hst0get : ∀ i, i ≠ o.id → Store.get st0 i = Store.get b.store i :=
    fun i hi => Store.get_insertRec_ne _ _ _ _ hi
  have hst0keys : ∀ i ∈ Store.keys st0, i ≤ cnt + 1 := by
    intro i hi
    rcases Store.keys_mem_insertRec b.store o.id o i hi with h | h
    · omega
    · obtain ⟨p, hp, hpi⟩ := List.mem_map.1 h
      have := (hwfS p hp).1
      omega
  have hbids_ne : ∀ i ∈ ladderIds b.bids, i ≠ o.id := by
    intro i hi hc
    have := (hbidsP i hi).1
    omega
  have hasks_ne : ∀ i ∈ ladderIds b.asks, i ≠ o.id := by
    intro i hi hc
    have := (hasksP i hi).1
    omega
  unfold Book.addOrder at hrun
  split at hrun
  · simp at hrun
  · dsimp only at hrun
    rw [Except.ok.injEq, Prod.mk.injEq] at hrun
    obtain ⟨hb', -⟩ := hrun
    rw [← hst0] at hb'
    by_cases hside : o.side = OrderSide.buy
    · simp only [if_pos hside] at hb'
      subst hb'
      set r := matchLadder st0 o.id b.asks with hr
      have ho1side : (Store.get r.1 o.id).side = o.side := by
        rw [(matchLadder_get_proj o.id b.asks st0 o.id).2.1, hst0,
          Store.get_insertRec_self]
      have hfill1 : ∀ p ∈ r.1, p.2.filledQuantity ≤ p.2.quantity :=
        matchLadder_fill_le o.id b.asks st0 hoid_asks hst0fill
      have hkeys1 : ∀ p ∈ r.1, p.1 ≤ cnt + 1 := by
        intro p hp
        refine hst0keys p.1 ?_
        rw [← matchLadder_keys o.id b.asks st0]
        exact List.mem_map.2 ⟨p, hp, rfl⟩
      have hasks1 : ∀ i ∈ ladderIds r.2.1,
          i ≤ cnt ∧ (Store.get r.1 i).isFilled = false := by
        intro i hi
        have hmem : i ∈ ladderIds b.asks :=
          (matchLadder_ids_sublist o.id b.asks st0).subset hi
        refine ⟨(hasksP i hmem).1, ?_⟩
        refine matchLadder_survivors_unfilled o.id b.asks st0 ?_ hasksN hoid_asks i hi
        intro m hm
        rw [hst0get m (hasks_ne m hm)]
        exact (hasksP m hm).2
      have hbids1 : ∀ i ∈ ladderIds b.bids,
          i ≤ cnt ∧ (Store.get r.1 i).isFilled = false := by
        intro i hi
        refine ⟨(hbidsP i hi).1, ?_⟩
        rw [matchLadder_frame o.id b.asks st0 i (hbids_ne i hi) (hdisj hi),
          hst0get i (hbids_ne i hi)]
        exact (hbidsP i hi).2
      have hsurv_sub : List.Sublist (ladderIds r.2.1) (ladderIds b.asks) :=
        matchLadder_ids_sublist o.id b.asks st0
      by_cases hfil : (Store.get r.1 o.id).isFilled = true
      · rw [if_pos hfil]
        refine ⟨?_, ?_, ?_⟩
        · intro p hp
          exact ⟨hkeys1 p hp, hfill1 p hp⟩
        · intro i hi
          rcases List.mem_append.1 hi with hi' | hi'
          · exact ⟨Nat.le_succ_of_le (hbids1 i hi').1, (hbids1 i hi').2⟩
          · exact ⟨Nat.le_succ_of_le (hasks1 i hi').1, (hasks1 i hi').2⟩
        · exact List.Nodup.sublist ((List.Sublist.refl _).append hsurv_sub) hwfN
      · rw [if_neg hfil, if_pos (by rw [ho1side]; exact hside)]
        have hunf : (Store.get r.1 o.id).isFilled = false := by
          rcases Bool.eq_false_or_eq_true ((Store.get r.1 o.id).isFilled) with h | h
          · exact absurd h hfil
          · exact h
        refine ⟨?_, ?_, ?_⟩
        · intro p hp
          exact ⟨hkeys1 p hp, hfill1 p hp⟩
        · intro i hi
          rcases List.mem_append.1 hi with hi' | hi'
          · rcases (ladderInsert_ids_mem bidBetter (Store.get r.1 o.id).price o.id
                b.bids i).1 hi' with h | h
            · exact ⟨Nat.le_succ_of_le (hbids1 i h).1, (hbids1 i h).2⟩
            · subst h
              exact ⟨le_of_eq hid, hunf⟩
          · exact ⟨Nat.le_succ_of_le (hasks1 i hi').1, (hasks1 i hi').2⟩
        · rw [List.nodup_append]
          refine ⟨ladderInsert_ids_nodup bidBetter _ o.id b.bids hbidsN hoid_bids,
            List.Nodup.sublist hsurv_sub hasksN, ?_⟩
          intro a ha hb2
          have hb3 : a ∈ ladderIds b.asks := hsurv_sub.subset hb2
          rcases (ladderInsert_ids_mem bidBetter (Store.get r.1 o.id).price o.id
              b.bids a).1 ha with h | h
          · exact hdisj h hb3
          · exact hoid_asks (h ▸ hb3)
    · simp only [if_neg hside] at hb'
      subst hb'
      set r := matchLadder st0 o.id b.bids with hr
      have ho1side : (Store.get r.1 o.id).side = o.side := by
        rw [(matchLadder_get_proj o.id b.bids st0 o.id).2.1, hst0,
          Store.get_insertRec_self]
      have hfill1 : ∀ p ∈ r.1, p.2.filledQuantity ≤ p.2.quantity :=
        matchLadder_fill_le o.id b.bids st0 hoid_bids hst0fill
      have hkeys1 : ∀ p ∈ r.1, p.1 ≤ cnt + 1 := by
        intro p hp
        refine hst0keys p.1 ?_
        rw [← matchLadder_keys o.id b.bids st0]
        exact List.mem_map.2 ⟨p, hp, rfl⟩
      have hbids1 : ∀ i ∈ ladderIds r.2.1,
          i ≤ cnt ∧ (Store.get r.1 i).isFilled = false := by
        intro i hi
        have hmem : i ∈ ladderIds b.bids :=
          (matchLadder_ids_sublist o.id b.bids st0).subset hi
        refine ⟨(hbidsP i hmem).1, ?_⟩
        refine matchLadder_survivors_unfilled o.id b.bids st0 ?_ hbidsN hoid_bids i hi
        intro m hm
        rw [hst0get m (hbids_ne m hm)]
        exact (hbidsP m hm).2
      have hasks1 : ∀ i ∈ ladderIds b.asks,
          i ≤ cnt ∧ (Store.get r.1 i).isFilled = false := by
        intro i hi
        refine ⟨(hasksP i hi).1, ?_⟩
        rw [matchLadder_frame o.id b.bids st0 i (hasks_ne i hi)
          (fun hc => hdisj hc hi), hst0get i (hasks_ne i hi)]
        exact (hasksP i hi).2
      have hsurv_sub : List.Sublist (ladderIds r.2.1) (ladderIds b.bids) :=
        matchLadder_ids_sublist o.id b.bids st0
      by_cases hfil : (Store.get r.1 o.id).isFilled = true
      · rw [if_pos hfil]
        refine ⟨?_, ?_, ?_⟩
        · intro p hp
          exact ⟨hkeys1 p hp, hfill1 p hp⟩
        · intro i hi
          rcases List.mem_append.1 hi with hi' | hi'
          · exact ⟨Nat.le_succ_of_le (hbids1 i hi').1, (hbids1 i hi').2⟩
          · exact ⟨Nat.le_succ_of_le (hasks1 i hi').1, (hasks1 i hi').2⟩
        · exact List.Nodup.sublist (hsurv_sub.append (List.Sublist.refl _)) hwfN
      · rw [if_neg hfil, if_neg (by rw [ho1side]; exact hside)]
        have hunf : (Store.get r.1 o.id).isFilled = false := by
          rcases Bool.eq_false_or_eq_true ((Store.get r.1 o.id).isFilled) with h | h
          · exact absurd h hfil
          · exact h
        refine ⟨?_, ?_, ?_⟩
        · intro p hp
          exact ⟨hkeys1 p hp, hfill1 p hp⟩
        · intro i hi
          rcases List.mem_append.1 hi with hi' | hi'
          · exact ⟨Nat.le_succ_of_le (hbids1 i hi').1, (hbids1 i hi').2⟩
          · rcases (ladderInsert_ids_mem askBetter (Store.get r.1 o.id).price o.id
                b.asks i).1 hi' with h | h
            · exact ⟨Nat.le_succ_of_le (hasks1 i h).1, (hasks1 i h).2⟩
            · subst h
              exact ⟨le_of_eq hid, hunf⟩
        · rw [List.nodup_append]
          refine ⟨List.Nodup.sublist hsurv_sub hbidsN,
            ladderInsert_ids_nodup askBetter _ o.id b.asks hasksN hoid_asks, ?_⟩
          intro a ha hb2
          have ha2 : a ∈ ladderIds b.bids := hsurv_sub.subset ha
          rcases (ladderInsert_ids_mem askBetter (Store.get r.1 o.id).price o.id
              b.asks a).1 hb2 with h | h
          · exact hdisj ha2 h
          · exact hoid_bids (h ▸ ha2)

/-- The trades of an accepted `addOrder` of a fresh order all have strictly
positive quantity. -/
theorem addOrder_trades_pos (cnt : Nat) (b : Book) (o : Order) (b' : Book)
    (ts : List Trade) (hwf : BookWF cnt b) (hid : o.id = cnt + 1)
    (hrun : b.addOrder o = .ok (b', ts)) : ∀ t ∈ ts, 0 < t.quantity := by
  obtain ⟨hwfS, hwfL, hwfN⟩ := hwf
  unfold Book.addOrder at hrun
  split at hrun
  · simp at hrun
  · dsimp only at hrun
    rw [Except.ok.injEq, Prod.mk.injEq] at hrun
    obtain ⟨-, hts⟩ := hrun
    subst hts
    have hoid : ∀ i ∈ ladderIds b.bids ++ ladderIds b.asks, i ≠ o.id := by
      intro i hi hc
      have := (hwfL i hi).1
      omega
    by_cases hside : o.side = OrderSide.buy
    · rw [if_pos hside]
      refine matchLadder_trades_pos o.id b.asks _ ?_
        (List.nodup_append.1 hwfN).2.1
        (fun hc => hoid o.id (List.mem_append.2 (Or.inr hc)) rfl)
      intro m hm
      rw [Store.get_insertRec_ne _ _ _ _ (hoid m (List.mem_append.2 (Or.inr hm)))]
      exact (hwfL m (List.mem_append.2 (Or.inr hm))).2
    · rw [if_neg hside]
      refine matchLadder_trades_pos o.id b.bids _ ?_
        (List.nodup_append.1 hwfN).1
        (fun hc => hoid o.id (List.mem_append.2 (Or.inl hc)) rfl)
      intro m hm
      rw [Store.get_insertRec_ne _ _ _ _ (hoid m (List.mem_append.2 (Or.inl hm)))]
      exact (hwfL m (List.mem_append.2 (Or.inl hm))).2

theorem Store.get_mem (s : Store) (k : Nat) (h : k ∈ Store.keys s) :
    (k, Store.get s k) ∈ s := by
  induction s with
  | nil => simp [Store.keys] at h
  | cons hd tl ih =>
    obtain ⟨k', o⟩ := hd
    by_cases hk : k = k'
    · subst hk
      rw [Store.get, if_pos rfl]
      exact List.mem_cons_self _ _
    · rw [Store.get, if_neg hk]
      rw [Store.keys, List.map_cons] at h
      rcases List.mem_cons.1 h with h' | h'
      · exact absurd h' hk
      · exact List.mem_cons_of_mem _ (ih h')

theorem cancelOrder_WF (cnt : Nat) (b : Book) (oid : Nat) (hwf : BookWF cnt b) :
    BookWF cnt (b.cancelOrder oid).1 := by
  obtain ⟨hwfS, hwfL, hwfN⟩ := hwf
  have hentries : ∀ p ∈ Store.update b.store oid
      (fun o => { o with status := .cancelled }),
      p.1 ≤ cnt ∧ p.2.filledQuantity ≤ p.2.quantity := by
    intro p hp
    rcases Store.mem_update_cases _ oid _ p hp with h | ⟨h, hk⟩
    · exact hwfS p h
    · have hmem := Store.get_mem b.store oid hk
      exact ⟨by rw [h]; exact (hwfS _ hmem).1, by rw [h]; exact (hwfS _ hmem).2⟩
  have hgetF : ∀ i, (Store.get (Store.update b.store oid
        (fun o => { o with status := .cancelled })) i).isFilled
      = (Store.get b.store i).isFilled := by
    intro i
    rcases Store.get_update_cases b.store oid i
      (fun o => { o with status := .cancelled }) with h | h
    · rw [h]
    · rw [h]
      rfl
  unfold Book.cancelOrder
  split
  · dsimp only
    by_cases hs : (Store.get b.store oid).side = OrderSide.buy
    · simp only [if_pos hs]
      refine ⟨hentries, ?_, ?_⟩
      · intro i hi
        rcases List.mem_append.1 hi with hi' | hi'
        · have hm : i ∈ ladderIds b.bids := (ladderCancel_ids_sublist _ _ _).subset hi'
          exact ⟨(hwfL i (List.mem_append.2 (Or.inl hm))).1,
            by rw [hgetF]; exact (hwfL i (List.mem_append.2 (Or.inl hm))).2⟩
        · exact ⟨(hwfL i (List.mem_append.2 (Or.inr hi'))).1,
            by rw [hgetF]; exact (hwfL i (List.mem_append.2 (Or.inr hi'))).2⟩
      · exact List.Nodup.sublist
          ((ladderCancel_ids_sublist _ _ _).append (List.Sublist.refl _)) hwfN
    · simp only [if_neg hs]
      refine ⟨hentries, ?_, ?_⟩
      · intro i hi
        rcases List.mem_append.1 hi with hi' | hi'
        · exact ⟨(hwfL i (List.mem_append.2 (Or.inl hi'))).1,
            by rw [hgetF]; exact (hwfL i (List.mem_append.2 (Or.inl hi'))).2⟩
        · have hm : i ∈ ladderIds b.asks := (ladderCancel_ids_sublist _ _ _).subset hi'
          exact ⟨(hwfL i (List.mem_append.2 (Or.inr hm))).1,
            by rw [hgetF]; exact (hwfL i (List.mem_append.2 (Or.inr hm))).2⟩
      · exact List.Nodup.sublist
          ((List.Sublist.refl _).append (ladderCancel_ids_sublist _ _ _)) hwfN
  · exact ⟨hwfS, hwfL, hwfN⟩

theorem bookWF_mono (cnt cnt' : Nat) (b : Book) (h : cnt ≤ cnt')
    (hw : BookWF cnt b) : BookWF cnt' b := by
  obtain ⟨h1, h2, h3⟩ := hw
  exact ⟨fun p hp => ⟨le_trans (h1 p hp).1 h, (h1 p hp).2⟩,
    fun i hi => ⟨le_trans (h2 i hi).1 h, (h2 i hi).2⟩, h3⟩

theorem bookWF_init (cnt : Nat) (pair : String) : BookWF cnt (Book.init pair) := by
  refine ⟨?_, ?_, ?_⟩
  · intro p hp
    exact absurd hp (List.not_mem_nil p)
  · intro i hi
    exact absurd hi (List.not_mem_nil i)
  · exact List.nodup_nil

theorem engineWF_init : EngineWF Engine.init :=
  fun pb hpb => absurd hpb (List.not_mem_nil pb)

theorem engineWF_addPair (e : Engine) (p : String) (h : EngineWF e) :
    EngineWF (e.addTradingPair p).1 := by
  unfold Engine.addTradingPair
  cases hb : booksLookup e.orderBooks p with
  | some book => exact h
  | none =>
    intro pb hpb
    rcases booksInsert_mem_cases _ _ _ pb hpb with hm | hm
    · exact h pb hm
    · rw [hm]
      exact bookWF_init _ _

theorem engineWF_submit (e : Engine) (u p : String) (sd : OrderSide) (ty : OrderType)
    (px q : ℚ) (h : EngineWF e) : EngineWF (e.submitOrder u p sd ty px q).2 := by
  unfold Engine.submitOrder
  by_cases h1 : q ≤ 0
  · rw [if_pos h1]
    exact h
  · rw [if_neg h1]
    by_cases h2 : ty = OrderType.limit ∧ px ≤ 0
    · rw [if_pos h2]
      exact h
    · rw [if_neg h2]
      cases hb : booksLookup e.orderBooks p with
      | none => exact h
      | some book =>
        dsimp only
        cases ha : Book.addOrder book
            ⟨(Engine.generateOrderId e).1, u, p, sd, ty, .pending, px, q, 0⟩ with
        | error err =>
          intro pb hpb
          exact bookWF_mono _ _ _ (Nat.le_succ _) (h pb hpb)
        | ok bt =>
          intro pb hpb
          rcases booksInsert_mem_cases _ _ _ pb hpb with hm | hm
          · exact bookWF_mono _ _ _ (Nat.le_succ _) (h pb hm)
          · rw [hm]
            dsimp only
            refine addOrder_WF e.orderIdCounter book
              ⟨(Engine.generateOrderId e).1, u, p, sd, ty, .pending, px, q, 0⟩
              bt.1 bt.2 (h (p, book) (booksLookup_mem _ _ _ hb)) rfl rfl
              (le_of_lt (lt_of_not_le h1)) ?_
            rw [ha]

theorem engineWF_cancel (e : Engine) (oid : Nat) (p : String) (h : EngineWF e) :
    EngineWF (e.cancelOrder oid p).1 := by
  unfold Engine.cancelOrder
  cases hb : booksLookup e.orderBooks p with
  | none => exact h
  | some book =>
    intro pb hpb
    rcases booksInsert_mem_cases _ _ _ pb hpb with hm | hm
    · exact h pb hm
    · rw [hm]
      exact cancelOrder_WF e.orderIdCounter book oid
        (h (p, book) (booksLookup_mem _ _ _ hb))

theorem runOps_WF (ops : List EngineOp) : EngineWF (runOps ops) := by
  suffices hgen : ∀ (l : List EngineOp) (e : Engine), EngineWF e →
      EngineWF (l.foldl EngineOp.apply e) from hgen ops Engine.init engineWF_init
  intro l
  induction l with
  | nil => exact fun e he => he
  | cons op rest ih =>
    intro e he
    refine ih _ ?_
    cases op with
    | addPair p => exact engineWF_addPair e p he
    | submit u p sd ty px q => exact engineWF_submit e u p sd ty px q he
    | cancel oid p => exact engineWF_cancel e oid p he

/-- The trades of any successful submit on a well-formed engine are all
strictly positive. -/
theorem submitOrder_trades_pos (e : Engine) (he : EngineWF e) (u p : String)
    (sd : OrderSide) (ty : OrderType) (px q : ℚ) (ts : List Trade) (e' : Engine)
    (h : Engine.submitOrder e u p sd ty px q = (.ok ts, e')) :
    ∀ t ∈ ts, 0 < t.quantity := by
  unfold Engine.submitOrder at h
  split at h
  · simp at h
  · split at h
    · simp at h
    · split at h
      · simp at h
      · dsimp only at h
        split at h
        · simp at h
        · rename_i x1 book hb x2 bt ha
          rw [Prod.mk.injEq, Except.ok.injEq] at h
          obtain ⟨hts, -⟩ := h
          subst hts
          exact addOrder_trades_pos e.orderIdCounter book
            ⟨(Engine.generateOrderId e).1, u, p, sd, ty, .pending, px, q, 0⟩
            bt.1 bt.2 (he (p, book) (booksLookup_mem _ _ _ hb)) rfl
            (by rw [ha])

theorem Store.get_update_self (s : Store) (k : Nat) (f : Order → Order)
    (h : k ∈ Store.keys s) :
    Store.get (Store.update s k f) k = f (Store.get s k) := by
  induction s with
  | nil => simp [Store.keys] at h
  | cons hd tl ih =>
    obtain ⟨k', o⟩ := hd
    by_cases hk : k = k'
    · subst hk
      simp [Store.update, Store.get]
    · have h' : k ∈ Store.keys tl := by
        rw [Store.keys, List.map_cons] at h
        rcases List.mem_cons.1 h with h'' | h''
        · exact absurd h'' hk
        · exact h''
      simp only [Store.update, if_neg hk, Store.get]
      exact ih h'

/-- C1 (failing run): after a sell limit 100×1 (id 1) is fully crossed by a
buy limit 100×1 (id 2), both orders are `filled` with zero remaining and sit
on no price level, yet both ids are still in the `orders_` directory — the
matching step never evicts filled records. -/
theorem filled_orders_remain_in_directory :
    (1 ∈ demoBookA.ordersDir ∧ 2 ∈ demoBookA.ordersDir) ∧
    (Store.get demoBookA.store 1).status = .filled ∧
    (Store.get demoBookA.store 2).status = .filled ∧
    (Store.get demoBookA.store 1).getRemainingQuantity = 0 ∧
    (Store.get demoBookA.store 2).getRemainingQuantity = 0 ∧
    demoBookA.bids = [] ∧ demoBookA.asks = [] := by
  norm_num +decide [demoBookA, demoEngineA, runOps, EngineOp.apply, Engine.submitOrder,
    Engine.addTradingPair, Engine.generateOrderId, Engine.init, booksLookup, booksInsert,
    Book.init, Book.addOrder, Store.insertRec, dirInsert, matchLadder, matchLevel,
    executeTrade, applyFill, Store.update, Store.get, Order.isFilled,
    Order.getRemainingQuantity, priceAcceptable, ladderInsert, Order.default0,
    bidBetter, askBetter]

/-- C2 (failing run): a market sell 1 on an empty book returns no trades but
is parked on the ask ladder at its (unvalidated) price 0; a later buy limit
10×1 then executes against it at price 0. -/
theorem market_residual_parked_not_dropped :
    (Store.get demoBookB.store 1).type = .market ∧
    demoBookB.asks = [(0, [1])] ∧
    demoBookB.getBestAsk = 0 ∧
    (demoEngineB.submitOrder "u2" "T" .buy .limit 10 1).1 =
      .ok [⟨2, 1, 0, 1⟩] := by
  norm_num +decide [demoBookB, demoEngineB, runOps, EngineOp.apply, Engine.submitOrder,
    Engine.addTradingPair, Engine.generateOrderId, Engine.init, booksLookup, booksInsert,
    Book.init, Book.addOrder, Store.insertRec, dirInsert, matchLadder, matchLevel,
    executeTrade, applyFill, Store.update, Store.get, Order.isFilled,
    Order.getRemainingQuantity, priceAcceptable, ladderInsert, Order.default0,
    bidBetter, askBetter, Book.getBestAsk]

/-- C3 (failing run): order 1 is `filled`, yet `cancelOrder 1` still finds
it in the directory, returns `true` and rewrites its status to `cancelled` —
`filled` is not terminal in the code. -/
theorem cancel_flips_filled_to_cancelled :
    (Store.get demoBookA.store 1).status = .filled ∧
    demoCancelA.2 = true ∧
    (Store.get ((booksLookup demoCancelA.1.orderBooks "T").getD (Book.init "")).store 1).status
      = .cancelled := by
  norm_num +decide [demoCancelA, demoBookA, demoEngineA, runOps, EngineOp.apply,
    Engine.submitOrder, Engine.addTradingPair, Engine.generateOrderId, Engine.init,
    booksLookup, booksInsert, Book.init, Book.addOrder, Store.insertRec, dirInsert,
    matchLadder, matchLevel, executeTrade, applyFill, Store.update, Store.get,
    Order.isFilled, Order.getRemainingQuantity, priceAcceptable, ladderInsert,
    Order.default0, bidBetter, askBetter, Engine.cancelOrder, Book.cancelOrder,
    ladderCancel, dirErase]

/-- C8: no over-fill and symmetric fills.  (i) After any sequence of public
engine operations, every stored order of every book has
filled ≤ quantity.  (ii) `executeTrade` increments both matched orders'
filled quantity by exactly the trade's quantity and records that quantity
on the emitted trade.  (iii) The quantity of each match-loop trade is
min(taker remaining, maker remaining).  (iv) Every trade of a successful
submit on a reachable engine is strictly positive. -/
theorem no_overfill_and_symmetric_fills :
    (∀ ops : List EngineOp, ∀ pb ∈ (runOps ops).orderBooks,
       ∀ p ∈ pb.2.store, p.2.filledQuantity ≤ p.2.quantity) ∧
    (∀ (st : Store) (bid sid : Nat) (px q : ℚ), bid ≠ sid →
       bid ∈ Store.keys st → sid ∈ Store.keys st →
       (Store.get (executeTrade st bid sid px q).1 bid).filledQuantity
          = (Store.get st bid).filledQuantity + q ∧
       (Store.get (executeTrade st bid sid px q).1 sid).filledQuantity
          = (Store.get st sid).filledQuantity + q ∧
       (executeTrade st bid sid px q).2.quantity = q) ∧
    (∀ (st : Store) (tid mid : Nat),
       (tradeStep st tid mid).2.quantity =
         min (Store.get st tid).getRemainingQuantity
           (Store.get st mid).getRemainingQuantity) ∧
    (∀ (ops : List EngineOp) (u p : String) (sd : OrderSide) (ty : OrderType)
       (px q : ℚ) (ts : List Trade) (e' : Engine),
       Engine.submitOrder (runOps ops) u p sd ty px q = (.ok ts, e') →
       ∀ t ∈ ts, 0 < t.quantity) := by
  refine ⟨?_, ?_, ?_, ?_⟩
  · intro ops pb hpb p hp
    exact ((runOps_WF ops pb hpb).1 p hp).2
  · intro st bid sid px q hne hbk hsk
    refine ⟨?_, ?_, rfl⟩
    · rw [show (executeTrade st bid sid px q).1
          = Store.update (Store.update st bid (applyFill q)) sid (applyFill q) from rfl,
        Store.get_update_ne _ sid bid _ hne,
        Store.get_update_self st bid _ hbk,
        applyFill_filledQuantity]
    · have hsk' : sid ∈ Store.keys (Store.update st bid (applyFill q)) := by
        rw [Store.keys_update]
        exact hsk
      rw [show (executeTrade st bid sid px q).1
          = Store.update (Store.update st bid (applyFill q)) sid (applyFill q) from rfl,
        Store.get_update_self _ sid _ hsk',
        applyFill_filledQuantity,
        Store.get_update_ne _ bid sid _ (Ne.symm hne)]
  · intro st tid mid
    exact (tradeStep_trade st tid mid).2.1
  · intro ops u p sd ty px q ts e' h
    exact submitOrder_trades_pos (runOps ops) (runOps_WF ops) u p sd ty px q ts e' h

theorem no_overfill_and_symmetric_fills_witness :
    ((1 : Nat) ≠ 2 ∧ 1 ∈ Store.keys demoStore7 ∧ 2 ∈ Store.keys demoStore7 ∧
      Engine.submitOrder demoEngineB "u2" "T" OrderSide.buy OrderType.limit 10 1
        = (Except.ok [⟨2, 1, 0, 1⟩], demoSubmit1.2)) ∧
    ((Store.get (executeTrade demoStore7 1 2 5 1).1 1).filledQuantity
        = (Store.get demoStore7 1).filledQuantity + 1 ∧
      (Store.get (executeTrade demoStore7 1 2 5 1).1 2).filledQuantity
        = (Store.get demoStore7 2).filledQuantity + 1 ∧
      (executeTrade demoStore7 1 2 5 1).2.quantity = 1) ∧
    (∀ t ∈ [(⟨2, 1, 0, 1⟩ : Trade)], 0 < t.quantity) := by
  have hne : (1 : Nat) ≠ 2 := by decide
  have hm1 : 1 ∈ Store.keys demoStore7 := by decide
  have hm2 : 2 ∈ Store.keys demoStore7 := by decide
  have h1 : (Engine.submitOrder demoEngineB "u2" "T" .buy .limit 10 1).1
      = .ok [⟨2, 1, 0, 1⟩] := by
    norm_num +decide [demoEngineB, runOps, EngineOp.apply, Engine.submitOrder,
      Engine.addTradingPair, Engine.generateOrderId, Engine.init, booksLookup, booksInsert,
      Book.init, Book.addOrder, Store.insertRec, dirInsert, matchLadder, matchLevel,
      executeTrade, applyFill, Store.update, Store.get, Order.isFilled,
      Order.getRemainingQuantity, priceAcceptable, ladderInsert, Order.default0,
      bidBetter, askBetter]
  have hrun : Engine.submitOrder demoEngineB "u2" "T" .buy .limit 10 1
      = (.ok [⟨2, 1, 0, 1⟩], demoSubmit1.2) := Prod.ext h1 rfl
  refine ⟨⟨hne, hm1, hm2, hrun⟩, ?_, ?_⟩
  · exact no_overfill_and_symmetric_fills.2.1 demoStore7 1 2 5 1 hne hm1 hm2
  · exact no_overfill_and_symmetric_fills.2.2.2
      [EngineOp.addPair "T", EngineOp.submit "u1" "T" OrderSide.sell OrderType.market 0 1]
      "u2" "T" OrderSide.buy OrderType.limit 10 1 [⟨2, 1, 0, 1⟩] demoSubmit1.2 hrun

end DEX
